import Mathlib

/-!
# riskystrats-server: a shallow embedding of the simulation engine

This file embeds the core simulation engine of the riskystrats game server
(`src/Game.ts`, `src/Map/Map.ts`, `src/Map/MapNode.ts`, `src/Map/MapArmy.ts`,
`src/Player.ts`) into Lean 4 and proves properties of the embedded code.

Modelling choices, uniform across the file:

* JavaScript numbers are modelled as `ℚ` (all quantities the engine
  manipulates are produced by field arithmetic, `Math.ceil`, `Math.min`,
  rounding of square roots, and integer literals; no claim in scope depends
  on float rounding).
* `Math.random()` draws are modelled by an explicit stream `r : ℕ → ℚ` of
  values, consumed left to right exactly as the source calls
  `Math.random()`; a counter `k` in the tick state tracks the next index.
* TypeScript object references to `MapNode`s are modelled by the node's
  index in the map's node array (the source assigns `node.id` to be exactly
  this index at construction and uses `this.map.nodes[id]` for lookup, and
  `===` on node references coincides with `id` equality for nodes of one
  map).  Armies are likewise identified by their position in the armies
  array, because the army tick loop mutates them in place.
* The Euclidean edge weight used by `Game.dijkstra`
  (`MapNode.distance`, a real square root) is an irrational number, so the
  embedding of `dijkstra` takes the weight function `w` as a parameter;
  theorems about it assume only `0 ≤ w i j`, which the Euclidean length
  satisfies, so every statement proved covers the source's instantiation.
  The *rounded integer* distance `MapNode.intDistance` (used for edge
  lengths of travelling armies) is exactly computable from rational
  coordinates and is embedded faithfully below (`roundSqrt`).
* The two `while` loops of `Game.dijkstra` are embedded with an explicit
  fuel of `nodes.length + 1`; for the main loop each non-returning
  iteration marks a fresh node done and for the backtracking loop the
  `prev` chain strictly descends the extraction order, so the fuel is never
  exhausted on well-formed inputs (this is proved, not assumed, in the
  correctness theorem).
-/

namespace Riskystrats

/-- `Player.Team` from `src/Player.ts`. -/
inductive Team where
  | Neutral
  | Red
  | Blue
  | Green
  | Yellow
  | Orange
  | Purple
deriving DecidableEq, Repr

/-- `MapNode.NodeType` from `src/Map/MapNode.ts`. -/
inductive NodeType where
  | Normal
  | Factory
  | PowerPlant
  | Fort
  | Artillery
deriving DecidableEq, Repr

/-- The mutable state of a `MapNode` (`src/Map/MapNode.ts`).  `adj` holds
the indices of the adjacent nodes and `assign` the index of the
standing-order target node (`undefined` becomes `none`). -/
structure NodeState where
  x : ℚ
  y : ℚ
  id : ℕ
  team : Team
  troops : ℚ
  type : NodeType
  assign : Option ℕ
  wasAttacked : Bool
  adj : List ℕ
deriving DecidableEq, Repr

/-- A `MapArmy` (`src/Map/MapArmy.ts`): origin node, current-hop
destination node, troop count, owning team, final destination node, id and
progress (`distance`) along the current edge. -/
structure Army where
  fromId : ℕ
  toId : ℕ
  troops : ℚ
  team : Team
  finalDest : ℕ
  id : ℕ
  distance : ℕ
deriving DecidableEq, Repr

/-- Placeholder node used to totalise array indexing; all theorems that
depend on node contents restrict indices to the array bounds. -/
def defaultNode : NodeState :=
  { x := 0, y := 0, id := 0, team := Team.Neutral, troops := 0,
    type := NodeType.Normal, assign := none, wasAttacked := false, adj := [] }

/-- Placeholder army used to totalise array indexing. -/
def defaultArmy : Army :=
  { fromId := 0, toId := 0, troops := 0, team := Team.Neutral,
    finalDest := 0, id := 0, distance := 0 }

/-- Node lookup, `this.map.nodes[i]`. -/
def getN (nodes : List NodeState) (i : ℕ) : NodeState :=
  nodes.getD i defaultNode

/-- Army lookup by position in the armies array. -/
def getA (armies : List Army) (i : ℕ) : Army :=
  armies.getD i defaultArmy

/-- Squared Euclidean distance between two nodes; the radicand of
`MapNode.distance`. -/
def sqDist (p q : NodeState) : ℚ :=
  (p.x - q.x) * (p.x - q.x) + (p.y - q.y) * (p.y - q.y)

/-- `Math.round (Math.sqrt s)` for a non-negative rational `s = n / d`:
JavaScript rounds half up, so this is `⌊√(n/d) + 1/2⌋ =
⌊(⌊√(4nd)⌋ + d) / (2d)⌋`, computed with integer arithmetic. -/
def roundSqrt (s : ℚ) : ℕ :=
  (Nat.sqrt (4 * s.num.toNat * s.den) + s.den) / (2 * s.den)

/-- `MapNode.intDistance` from `src/Map/MapNode.ts`: the rounded Euclidean
distance between two nodes. -/
def intDistance (p q : NodeState) : ℕ :=
  roundSqrt (sqDist p q)

/-- Rounded length of the edge between nodes `i` and `j`,
`MapNode.intDistance(nodes[i], nodes[j])`. -/
def edgeLen (nodes : List NodeState) (i j : ℕ) : ℕ :=
  intDistance (getN nodes i) (getN nodes j)

/-! ## Combat (`MapArmy.battle`, `src/Map/MapArmy.ts` lines 73–93) -/

/-- `MapArmy.lossMeanRatio = 1 / 80`. -/
def lossMeanRatio : ℚ := 1 / 80

/-- `MapArmy.lossRadius = 0.1`. -/
def lossRadius : ℚ := 1 / 10

/-- The uniform random loss factor
`1 - lossRadius + Math.random() * 2 * lossRadius`, where `r` stands for the
`Math.random()` draw. -/
def lossFactor (r : ℚ) : ℚ :=
  1 - lossRadius + r * 2 * lossRadius

/-- `MapArmy.battle(troopsA, troopsB, multA, multB)`.  `r1` is the first
`Math.random()` draw of the call and `r2` the second (consumed only in the
equal-size branch). -/
def battle (troopsA troopsB multA multB r1 r2 : ℚ) : ℚ × ℚ :=
  if troopsA ≤ 0 ∨ troopsB ≤ 0 then
    (max troopsA 0, max troopsB 0)
  else
    let losses :=
      if troopsA < troopsB then
        let lossesB := troopsB * lossMeanRatio * lossFactor r1
        (lossesB * (troopsB / troopsA), lossesB)
      else if troopsB < troopsA then
        let lossesA := troopsA * lossMeanRatio * lossFactor r1
        (lossesA, lossesA * (troopsA / troopsB))
      else
        (troopsA * lossMeanRatio * lossFactor r1,
         troopsB * lossMeanRatio * lossFactor r2)
    (troopsA - ⌈losses.1 * multA⌉, troopsB - ⌈losses.2 * multB⌉)

/-- Number of `Math.random()` draws a call to `battle` consumes. -/
def battleRandCount (troopsA troopsB : ℚ) : ℕ :=
  if troopsA ≤ 0 ∨ troopsB ≤ 0 then 0
  else if troopsA = troopsB then 2 else 1

/-- The combat rule as the claim under review words it: for unequal pools
the *smaller* pool's raw loss comes from its own mean-ratio formula and the
*larger* pool's raw loss is the smaller pool's raw loss times
`larger / smaller`.  Written from the claim's words, only to be compared
with `battle`, which is written from the source. -/
def battleClaim (troopsA troopsB multA multB r1 r2 : ℚ) : ℚ × ℚ :=
  if troopsA ≤ 0 ∨ troopsB ≤ 0 then
    (max troopsA 0, max troopsB 0)
  else
    let losses :=
      if troopsA < troopsB then
        let lossesA := troopsA * lossMeanRatio * lossFactor r1
        (lossesA, lossesA * (troopsB / troopsA))
      else if troopsB < troopsA then
        let lossesB := troopsB * lossMeanRatio * lossFactor r1
        (lossesB * (troopsA / troopsB), lossesB)
      else
        (troopsA * lossMeanRatio * lossFactor r1,
         troopsB * lossMeanRatio * lossFactor r2)
    (troopsA - ⌈losses.1 * multA⌉, troopsB - ⌈losses.2 * multB⌉)

/-! ## The router (`Game.dijkstra`, `src/Game.ts` lines 186–231) -/

/-- The working state of `Game.dijkstra`: `dist` (with `none` standing for
`Infinity`), `prev` (with `none` standing for `-1`) and `done`. -/
structure DijkState where
  dist : ℕ → Option ℚ
  prev : ℕ → Option ℕ
  done : ℕ → Bool

/-- The JavaScript comparison `dist[a] < dist[b]` where `none` is
`Infinity` (`x < Infinity` is true for finite `x`, `Infinity < y` is
false). -/
def optLt : Option ℚ → Option ℚ → Bool
  | some a, some b => decide (a < b)
  | some _, none => true
  | none, _ => false

/-- `dist[u] + distBtwn` where `none` is `Infinity`. -/
def optAdd : Option ℚ → ℚ → Option ℚ
  | some a, c => some (a + c)
  | none, _ => none

/-- One step of the selection loop
`for (let node of this.map.nodes) if (!(done[node.id]) && (nextNodeID === -1 || dist[node.id] < dist[nextNodeID])) nextNodeID = node.id`. -/
def selectStep (st : DijkState) (acc : Option ℕ) (node : NodeState) : Option ℕ :=
  if st.done node.id then acc
  else
    match acc with
    | none => some node.id
    | some j => if optLt (st.dist node.id) (st.dist j) then some node.id else acc

/-- The full selection loop; `none` is the JavaScript `nextNodeID === -1`. -/
def selectNext (nodes : List NodeState) (st : DijkState) : Option ℕ :=
  nodes.foldl (selectStep st) none

/-- The relaxation of one adjacent node `v` of the extracted node `u`:
`if (!(done[adjNode.id]) && (adjNode === to || adjNode.team === from.team)) { ... }`. -/
def relaxOne (w : ℕ → ℕ → ℚ) (nodes : List NodeState) (fTeam : Team) (t u : ℕ)
    (st : DijkState) (v : ℕ) : DijkState :=
  if st.done v = false ∧ (v = t ∨ (getN nodes v).team = fTeam) then
    if optLt (optAdd (st.dist u) (w u v)) (st.dist v) then
      { st with
        dist := fun j => if j = v then optAdd (st.dist u) (w u v) else st.dist j,
        prev := fun j => if j = v then some u else st.prev j }
    else st
  else st

/-- Relaxation of every node adjacent to the extracted node `u`. -/
def relaxAll (w : ℕ → ℕ → ℚ) (nodes : List NodeState) (fTeam : Team) (t u : ℕ)
    (st : DijkState) : DijkState :=
  (getN nodes u).adj.foldl (relaxOne w nodes fTeam t u) st

/-- The main `while (true)` loop of `Game.dijkstra`, with explicit fuel.
`none` is the JavaScript `return undefined`; `some st` is the `break` at
the destination node (the fuel case is proved unreachable for fuel
`nodes.length + 1`). -/
def dijkstraLoop (w : ℕ → ℕ → ℚ) (nodes : List NodeState) (fTeam : Team) (t : ℕ) :
    ℕ → DijkState → Option DijkState
  | 0, _ => none
  | fuel + 1, st =>
    match selectNext nodes st with
    | none => none
    | some u =>
      if st.dist u = none then none
      else if u = t then some st
      else
        dijkstraLoop w nodes fTeam t fuel
          (relaxAll w nodes fTeam t u
            { st with done := fun j => if j = u then true else st.done j })

/-- The backtracking loop
`while (prev[targetID] !== from.id) { targetID = prev[targetID]; if (targetID === -1) return undefined; }`,
with explicit fuel (the `prev` chain strictly descends the extraction
order, so fuel `nodes.length + 1` always suffices; proved, not assumed). -/
def backtrack (st : DijkState) (f : ℕ) : ℕ → ℕ → Option ℕ
  | 0, _ => none
  | fuel + 1, targetID =>
    if st.prev targetID = some f then some targetID
    else
      match st.prev targetID with
      | none => none
      | some p => backtrack st f fuel p

/-- The initial `DijkState` of `Game.dijkstra`: all distances `Infinity`
except `dist[from.id] = 0`, all `prev` entries `-1`, nothing done. -/
def dijkInit (f : ℕ) : DijkState :=
  { dist := fun j => if j = f then some 0 else none,
    prev := fun _ => none,
    done := fun _ => false }

/-- `Game.dijkstra(from, to)`: the id of the first hop on the chosen path,
or `none` for `undefined`.  `w` is the Euclidean edge weight
`MapNode.distance` (taken as a parameter because the real square root is
irrational; every theorem assumes only `0 ≤ w i j`). -/
def dijkstra (w : ℕ → ℕ → ℚ) (nodes : List NodeState) (f t : ℕ) : Option ℕ :=
  match dijkstraLoop w nodes (getN nodes f).team t (nodes.length + 1) (dijkInit f) with
  | none => none
  | some st => backtrack st f (nodes.length + 1) t

/-! ## Game state and command operations (`src/Game.ts`) -/

/-- The mutable state of a `Game`: the map's node array, the active army
array, the tick counter and the army-id counter. -/
structure GameState where
  nodes : List NodeState
  armies : List Army
  tickNumber : ℕ
  armyCounter : ℕ
deriving DecidableEq, Repr

/-- Node lookup on a game state. -/
def getNode (s : GameState) (i : ℕ) : NodeState :=
  getN s.nodes i

/-- Replace node `i` of a game state. -/
def setNode (s : GameState) (i : ℕ) (nd : NodeState) : GameState :=
  { s with nodes := s.nodes.set i nd }

/-- `Game.getNodeByID(nodeID)`: bounds-checked lookup (the id is an
arbitrary integer from the wire, so it is modelled as `ℤ`). -/
def getNodeByID (s : GameState) (nodeID : ℤ) : Option NodeState :=
  if nodeID < 0 ∨ (s.nodes.length : ℤ) ≤ nodeID then none
  else some (getN s.nodes nodeID.toNat)

/-- `Game.buildingCosts`, defined exactly on the keys present in the
source object (`type in Game.buildingCosts` is false for `Normal`). -/
def buildingCost : NodeType → Option ℚ
  | NodeType.Factory => some 200
  | NodeType.PowerPlant => some 1000
  | NodeType.Fort => some 500
  | NodeType.Artillery => some 2000
  | NodeType.Normal => none

/-- `Game.build(team, node, type)`; returns the success flag and the
updated state. -/
def build (team : Team) (i : ℕ) (type : NodeType) (s : GameState) : Bool × GameState :=
  if team = Team.Neutral ∨ buildingCost type = none then (false, s)
  else
    let node := getNode s i
    let cost := (buildingCost type).getD 0
    if node.team = team ∧ node.type ≠ type ∧ cost ≤ node.troops then
      (true, setNode s i { node with type := type, troops := node.troops - cost })
    else (false, s)

/-- `Game.sendArmy(team, from, to, troops)`; returns the success flag and
the updated state.  `w` is the router's edge-weight parameter. -/
def sendArmy (w : ℕ → ℕ → ℚ) (team : Team) (f t : ℕ) (troops : ℚ) (s : GameState) :
    Bool × GameState :=
  let fromN := getNode s f
  if fromN.team ≠ team ∨ team = Team.Neutral then (false, s)
  else if s.armies.any fun ar =>
      decide (ar.fromId = t ∧ ar.toId = f ∧ ar.team ≠ team ∧
        ar.distance = edgeLen s.nodes f t) then (false, s)
  else
    let tr := min troops fromN.troops
    if tr = 0 then (true, s)
    else
      match dijkstra w s.nodes f t with
      | none => (false, s)
      | some target =>
        (true,
          { s with
            nodes := s.nodes.set f { fromN with troops := fromN.troops - tr },
            armies := s.armies ++
              [{ fromId := f, toId := target, troops := tr, team := fromN.team,
                 finalDest := t, id := s.armyCounter, distance := 0 }],
            armyCounter := s.armyCounter + 1 })

/-- `Game.assign(team, from, to)`. -/
def assign (w : ℕ → ℕ → ℚ) (team : Team) (f t : ℕ) (s : GameState) : Bool × GameState :=
  if team = Team.Neutral ∨ (getNode s f).team ≠ team then (false, s)
  else
    let target := dijkstra w s.nodes f t
    (true, setNode s f
      { getNode s f with assign := if target = none then none else some t })

/-- `Game.unassign(team, from)`. -/
def unassign (team : Team) (f : ℕ) (s : GameState) : Bool × GameState :=
  if team = Team.Neutral ∨ (getNode s f).team ≠ team then (false, s)
  else (true, setNode s f { getNode s f with assign := none })

/-- `Game.forfeit(team)`. -/
def forfeit (team : Team) (s : GameState) : Bool × GameState :=
  if team = Team.Neutral then (false, s)
  else
    (true,
      { s with
        nodes := s.nodes.map fun nd =>
          if nd.team = team then
            { nd with team := Team.Neutral, type := NodeType.Normal, troops := 0 }
          else nd,
        armies := s.armies.filter fun a => decide (a.team ≠ team) })

/-! ## Node production (`MapNode.tick`, `src/Map/MapNode.ts` lines 83–99) -/

/-- `MapNode.tick(tickNumber)`.  `neighbors` are the states of the nodes
listed in `node.adj`. -/
def nodeTick (node : NodeState) (neighbors : List NodeState) (tickNumber : ℕ) : NodeState :=
  if tickNumber % 2 ≠ 0 ∨ node.wasAttacked then
    { node with wasAttacked := false }
  else
    let mult : ℚ := 1 +
      (neighbors.filter fun m =>
        decide (m.team = node.team ∧ m.type = NodeType.PowerPlant)).length
    if node.type = NodeType.Factory then
      { node with troops := node.troops + mult * 2 }
    else
      { node with troops := node.troops + 1 }

/-! ## Army movement and combat (`MapArmy.tick`, `src/Map/MapArmy.ts`
lines 140–193) -/

/-- `MapArmy.sameDirection`. -/
def sameDirection (a b : Army) : Prop :=
  a.toId = b.toId ∧ a.fromId = b.fromId

instance : DecidablePred fun p : Army × Army => sameDirection p.1 p.2 :=
  fun _ => by unfold sameDirection; infer_instance

instance (a b : Army) : Decidable (sameDirection a b) := by
  unfold sameDirection; infer_instance

/-- `MapArmy.oppositeDirection`. -/
def oppositeDirection (a b : Army) : Prop :=
  a.toId = b.fromId ∧ a.fromId = b.toId

instance (a b : Army) : Decidable (oppositeDirection a b) := by
  unfold oppositeDirection; infer_instance

/-- `MapArmy.areCollidingTail`: `a.distance === b.distance - 1` over
JavaScript numbers is `a.distance + 1 = b.distance` over `ℕ`. -/
def areCollidingTail (a b : Army) : Prop :=
  sameDirection a b ∧ a.distance + 1 = b.distance

instance (a b : Army) : Decidable (areCollidingTail a b) := by
  unfold areCollidingTail; infer_instance

/-- `MapArmy.areCollidingHead`:
`a.distance + b.distance === intDistance(a.to, a.from) - 1`. -/
def areCollidingHead (nodes : List NodeState) (a b : Army) : Prop :=
  oppositeDirection a b ∧ a.distance + b.distance + 1 = edgeLen nodes a.toId a.fromId

instance (nodes : List NodeState) (a b : Army) :
    Decidable (areCollidingHead nodes a b) := by
  unfold areCollidingHead; infer_instance

/-- The combined collision test of the inner scan of `MapArmy.tick`
(tail collision, or head collision between enemies). -/
def collides (nodes : List NodeState) (a b : Army) : Prop :=
  areCollidingTail a b ∨ (areCollidingHead nodes a b ∧ a.team ≠ b.team)

instance (nodes : List NodeState) (a b : Army) :
    Decidable (collides nodes a b) := by
  unfold collides; infer_instance

/-- Working state of one `MapArmy.tick` call: the node array, the sorted
army array being mutated in place, the `armiesToSend` accumulator
(entries `(node, finalDest, troops)`), and the index of the next
`Math.random()` draw. -/
structure TickState where
  nodes : List NodeState
  armies : List Army
  toSend : List (ℕ × ℕ × ℚ)
  k : ℕ

/-- `MapArmy.battleNode(node, army)` for the army at index `i` (the node
is `army.to`). -/
def battleNode (r : ℕ → ℚ) (st : TickState) (i : ℕ) : TickState :=
  let a := getA st.armies i
  let node := getN st.nodes a.toId
  let origin := getN st.nodes a.fromId
  let nodeMult : ℚ :=
    (if node.type = NodeType.Fort then 1 / 2 else 1) *
      (if origin.team = a.team ∧ origin.type = NodeType.Artillery then 2 else 1)
  let armyMult : ℚ := if node.type = NodeType.Artillery then 2 else 1
  let res := battle node.troops a.troops nodeMult armyMult (r st.k) (r (st.k + 1))
  let k' := st.k + battleRandCount node.troops a.troops
  if res.1 ≤ 0 then
    let node' :=
      if 0 < res.2 then
        { node with type := NodeType.Normal, assign := none, team := a.team,
                    troops := res.2, wasAttacked := true }
      else
        { node with type := NodeType.Normal, assign := none, team := Team.Neutral,
                    troops := 0, wasAttacked := true }
    { st with
      nodes := st.nodes.set a.toId node',
      armies := st.armies.set i { a with troops := 0 },
      k := k' }
  else
    { st with
      nodes := st.nodes.set a.toId { node with troops := res.1, wasAttacked := true },
      armies := st.armies.set i { a with troops := res.2 },
      k := k' }

/-- `MapArmy.battleEdge(army1, army2)` for the armies at indices `i` and
`j`. -/
def battleEdge (r : ℕ → ℚ) (st : TickState) (i j : ℕ) : TickState :=
  let a1 := getA st.armies i
  let a2 := getA st.armies j
  let o2 := getN st.nodes a2.fromId
  let o1 := getN st.nodes a1.fromId
  let m1 : ℚ := if o2.team = a2.team ∧ o2.type = NodeType.Artillery then 2 else 1
  let m2 : ℚ := if o1.team = a1.team ∧ o1.type = NodeType.Artillery then 2 else 1
  let res := battle a1.troops a2.troops m1 m2 (r st.k) (r (st.k + 1))
  { st with
    armies := (st.armies.set i { a1 with troops := res.1 }).set j { a2 with troops := res.2 },
    k := st.k + battleRandCount a1.troops a2.troops }

/-- The in-transit branch of `MapArmy.tick` for the army at index `i`:
scan for the first colliding army (checking the tail collision first for
each candidate, exactly like the `if / else if` of the source), merge or
battle on collision, otherwise advance one step. -/
def processTransit (r : ℕ → ℚ) (st : TickState) (i : ℕ) : TickState :=
  let a := getA st.armies i
  match st.armies.findIdx? fun b => decide (collides st.nodes a b) with
  | none =>
    { st with armies := st.armies.set i { a with distance := a.distance + 1 } }
  | some j =>
    let b := getA st.armies j
    if areCollidingTail a b then
      if a.team = b.team ∧ a.finalDest = b.finalDest then
        let merged := (st.armies.set j { b with troops := b.troops + a.troops }).set i
          { a with troops := 0 }
        { st with armies := merged }
      else battleEdge r st i j
    else battleEdge r st i j

/-- The body of the main loop of `MapArmy.tick` for the army at index
`i`: arrival resolution when the army's progress equals the rounded edge
length, collision handling otherwise. -/
def processArmy (r : ℕ → ℚ) (st : TickState) (i : ℕ) : TickState :=
  let a := getA st.armies i
  let distance := edgeLen st.nodes a.fromId a.toId
  if a.distance = distance then
    let node := getN st.nodes a.toId
    if a.team ≠ node.team then battleNode r st i
    else
      { st with
        nodes := st.nodes.set a.toId { node with troops := node.troops + a.troops },
        toSend :=
          if a.finalDest ≠ a.toId then st.toSend ++ [(a.toId, a.finalDest, a.troops)]
          else st.toSend,
        armies := st.armies.set i { a with troops := 0 } }
  else processTransit r st i

/-- The sort of `MapArmy.tick`:
`armies.sort((a, b) => b.distance - a.distance)`, descending by progress
(stable, as in the V8 runtime the server targets). -/
def sortArmies (armies : List Army) : List Army :=
  armies.mergeSort fun a b => decide (b.distance ≤ a.distance)

/-- `MapArmy.tick(armies)` over an explicit node array: sort by descending
progress, process each army once in order, then drop the armies whose
troop count is not positive.  Returns the final working state (its
`armies` field is the surviving army array and its `toSend` field the
continuation dispatches). -/
def armiesTick (r : ℕ → ℚ) (nodes : List NodeState) (armies : List Army) : TickState :=
  let sorted := sortArmies armies
  let st1 := (List.range sorted.length).foldl (processArmy r)
    { nodes := nodes, armies := sorted, toSend := [], k := 0 }
  { st1 with armies := st1.armies.filter fun a => decide (0 < a.troops) }

/-! ## The game tick (`Game.tick`, `src/Game.ts` lines 68–89) -/

/-- `node.tick(this.tickNumber)` for the node at index `i`. -/
def nodeTickAt (tickNumber : ℕ) (s : GameState) (i : ℕ) : GameState :=
  let node := getNode s i
  let neighbors := node.adj.map (getN s.nodes)
  setNode s i (nodeTick node neighbors tickNumber)

/-- The body of the per-node loop of `Game.tick`: age the node, then on
every 8th tick re-evaluate its standing order by dispatching its full
troop count, clearing the order on failure. -/
def nodeLoopStep (w : ℕ → ℕ → ℚ) (tickNumber : ℕ) (s : GameState) (i : ℕ) : GameState :=
  let s1 := nodeTickAt tickNumber s i
  let node := getNode s1 i
  match node.assign with
  | none => s1
  | some target =>
    if tickNumber % 8 = 0 then
      let res := sendArmy w node.team i target node.troops s1
      if res.1 then res.2
      else setNode res.2 i { getNode res.2 i with assign := none }
    else s1

/-- `Game.tick()`: advance the tick counter, run the army tick, age every
node (re-evaluating standing orders), then submit the continuation
dispatches collected from army arrival. -/
def gameTick (w : ℕ → ℕ → ℚ) (r : ℕ → ℚ) (s : GameState) : GameState :=
  let tickN := s.tickNumber + 1
  let ts := armiesTick r s.nodes s.armies
  let s1 : GameState :=
    { nodes := ts.nodes, armies := ts.armies, tickNumber := tickN,
      armyCounter := s.armyCounter }
  let s2 := (List.range s1.nodes.length).foldl (nodeLoopStep w tickN) s1
  ts.toSend.foldl
    (fun st e => (sendArmy w (getN st.nodes e.1).team e.1 e.2.1 e.2.2 st).2) s2

/-! ## Serialization (`MapArmy.MapArmyJSON` and `MapArmy.toJSON`,
`src/Map/MapArmy.ts` lines 9–18 and 199–208) -/

/-- `MapArmy.MapArmyJSON`: the non-recursive army record broadcast to
clients.  Its fields are exactly the six fields of the source interface
(`from`, `to`, `troops`, `distance`, `team`, `id`). -/
structure MapArmyJSON where
  fromId : ℕ
  toId : ℕ
  troops : ℚ
  distance : ℕ
  team : Team
  id : ℕ
deriving DecidableEq, Repr

/-- `MapArmy.toJSON()`. -/
def armyToJSON (a : Army) : MapArmyJSON :=
  { fromId := a.fromId, toId := a.toId, troops := a.troops,
    distance := a.distance, team := a.team, id := a.id }

/-! ## Path semantics for the router

The subgraph `Game.dijkstra` searches: from a node `u` one may step to a
node `v` when `v` is adjacent to `u` and `v` is either the destination
itself or owned by the origin node's team (the relaxation guard
`adjNode === to || adjNode.team === from.team`). -/

/-- One admissible step of the constrained search. -/
def allowedStep (nodes : List NodeState) (fTeam : Team) (t : ℕ) (u v : ℕ) : Prop :=
  v ∈ (getN nodes u).adj ∧ (v = t ∨ (getN nodes v).team = fTeam)

instance (nodes : List NodeState) (fTeam : Team) (t u v : ℕ) :
    Decidable (allowedStep nodes fTeam t u v) :=
  inferInstanceAs (Decidable (v ∈ (getN nodes u).adj ∧
    (v = t ∨ (getN nodes v).team = fTeam)))

/-- Total weight of a vertex sequence under the edge weight `w`. -/
def pathW (w : ℕ → ℕ → ℚ) : List ℕ → ℚ
  | [] => 0
  | [_] => 0
  | u :: v :: rest => w u v + pathW w (v :: rest)

/-- `l` is an admissible path from `f` to `dst` in the constrained
subgraph: consecutive vertices are admissible steps, the list starts at
`f` and ends at `dst`. -/
def IsPath (nodes : List NodeState) (fTeam : Team) (t f dst : ℕ) (l : List ℕ) : Prop :=
  l.Chain' (allowedStep nodes fTeam t) ∧ l.head? = some f ∧ l.getLast? = some dst

instance (nodes : List NodeState) (fTeam : Team) (t f dst : ℕ) (l : List ℕ) :
    Decidable (IsPath nodes fTeam t f dst l) :=
  inferInstanceAs (Decidable (l.Chain' (allowedStep nodes fTeam t) ∧
    l.head? = some f ∧ l.getLast? = some dst))

/-- Well-formedness of a map's node array, guaranteed by the `Map`
constructor: every node's `id` field is its index in the array (the
source assigns `newNode.id = this.nodes.length` right before pushing, and
looks nodes up as `this.map.nodes[id]`), and adjacency lists mention only
nodes of the array. -/
def WellFormedNodes (nodes : List NodeState) : Prop :=
  (∀ i, i < nodes.length → (getN nodes i).id = i) ∧
  (∀ i, i < nodes.length → ∀ j ∈ (getN nodes i).adj, j < nodes.length)

instance (nodes : List NodeState) : Decidable (WellFormedNodes nodes) :=
  inferInstanceAs (Decidable
    ((∀ i, i < nodes.length → (getN nodes i).id = i) ∧
     (∀ i, i < nodes.length → ∀ j ∈ (getN nodes i).adj, j < nodes.length)))

/-! ## Concrete fixtures used by witness and counterexample theorems -/

/-- A constant edge weight (any non-negative weight; the witnesses only
need one). -/
def exW : ℕ → ℕ → ℚ := fun _ _ => 1

/-- A constant random stream. -/
def exR : ℕ → ℚ := fun _ => 1 / 2

/-- Fixture: a three-node path graph `0 – 1 – 2`, nodes 0 and 1 red,
node 2 neutral. -/
def exNode0 : NodeState :=
  { defaultNode with x := 0, y := 0, id := 0, team := Team.Red, troops := 50, adj := [1] }

/-- Fixture node 1 of the three-node path graph. -/
def exNode1 : NodeState :=
  { defaultNode with x := 3, y := 0, id := 1, team := Team.Red, troops := 10, adj := [0, 2] }

/-- Fixture node 2 of the three-node path graph. -/
def exNode2 : NodeState :=
  { defaultNode with x := 6, y := 0, id := 2, team := Team.Neutral, troops := 10, adj := [1] }

/-- Fixture node array of the three-node path graph. -/
def exNodes : List NodeState := [exNode0, exNode1, exNode2]

/-- Fixture game state over `exNodes` with no armies. -/
def exState : GameState :=
  { nodes := exNodes, armies := [], tickNumber := 0, armyCounter := 0 }

/-- Fixture: a two-node graph whose nodes are both neutral. -/
def exStateNeutral : GameState :=
  { nodes :=
      [{ defaultNode with x := 0, y := 0, id := 0, team := Team.Neutral,
                          troops := 50, adj := [1] },
       { defaultNode with x := 3, y := 0, id := 1, team := Team.Neutral,
                          troops := 10, adj := [0] }],
    armies := [], tickNumber := 0, armyCounter := 0 }

/-- Fixture: a single neutral node holding 300 troops. -/
def exStateNeutralRich : GameState :=
  { nodes := [{ defaultNode with id := 0, team := Team.Neutral, troops := 300 }],
    armies := [], tickNumber := 0, armyCounter := 0 }

/-- Fixture: a single red node holding 300 troops. -/
def exStateBuild : GameState :=
  { nodes := [{ defaultNode with id := 0, team := Team.Red, troops := 300 }],
    armies := [], tickNumber := 0, armyCounter := 0 }

/-- Fixture: a two-node graph owned by blue (for failure cases of red
commands). -/
def exStateBlue : GameState :=
  { nodes :=
      [{ defaultNode with x := 0, y := 0, id := 0, team := Team.Blue,
                          troops := 50, adj := [1] },
       { defaultNode with x := 3, y := 0, id := 1, team := Team.Blue,
                          troops := 50, adj := [0] }],
    armies := [], tickNumber := 0, armyCounter := 0 }

/-- Fixture: a two-node graph owned by red, source node holding 50
troops. -/
def exStateSend : GameState :=
  { nodes :=
      [{ defaultNode with x := 0, y := 0, id := 0, team := Team.Red,
                          troops := 50, adj := [1] },
       { defaultNode with x := 3, y := 0, id := 1, team := Team.Red,
                          troops := 10, adj := [0] }],
    armies := [], tickNumber := 0, armyCounter := 0 }

/-- Fixture army. -/
def exArmyA : Army :=
  { fromId := 0, toId := 1, troops := 5, team := Team.Red, finalDest := 2,
    id := 7, distance := 3 }

/-- Fixture army equal to `exArmyA` except for its final destination. -/
def exArmyB : Army := { exArmyA with finalDest := 1 }

/-- Fixture: a red factory node. -/
def exFactoryNode : NodeState :=
  { defaultNode with team := Team.Red, type := NodeType.Factory, troops := 10 }

/-- Fixture: a red power-plant node. -/
def exPlantNode : NodeState :=
  { defaultNode with team := Team.Red, type := NodeType.PowerPlant }

/-- Fixture: a red army in transit from node 0 toward node 1. -/
def exArmyMoving : Army :=
  { fromId := 0, toId := 1, troops := 5, team := Team.Red, finalDest := 1,
    id := 0, distance := 1 }

/-- Fixture game state with one army in flight. -/
def exTickFixture : GameState :=
  { nodes := exNodes, armies := [exArmyMoving], tickNumber := 0, armyCounter := 1 }

/-! ## Invariant bookkeeping for the army tick

`MapArmy.tick` processes the sorted army array in place.  `TickInv A0 N0 i st`
records what survives after the first `i` armies of the sorted snapshot `A0`
(over the initial node array `N0`) have been processed: node troops stay
non-negative, node positions never change, every scheduled continuation
dispatch carries positive troops, the armies' identifying fields
(`from`/`to`/`team`/`finalDest`) never change, and every still-unprocessed
army keeps its snapshot progress — and, when it is exactly at arrival, its
snapshot troop count (the collision rules can only damage unprocessed armies
that are strictly inside an edge). -/

/-- Army `j` of the snapshot is exactly at its arrival distance. -/
def atArrival (A0 : List Army) (N0 : List NodeState) (j : ℕ) : Prop :=
  (getA A0 j).distance = edgeLen N0 (getA A0 j).fromId (getA A0 j).toId

/-- The loop invariant of the army tick (see the section comment). -/
def TickInv (A0 : List Army) (N0 : List NodeState) (i : ℕ) (st : TickState) : Prop :=
  (∀ nd ∈ st.nodes, 0 ≤ nd.troops) ∧
  (∀ m, (getN st.nodes m).x = (getN N0 m).x ∧ (getN st.nodes m).y = (getN N0 m).y) ∧
  (∀ e ∈ st.toSend, 0 < e.2.2) ∧
  (∀ j, (getA st.armies j).fromId = (getA A0 j).fromId ∧
        (getA st.armies j).toId = (getA A0 j).toId ∧
        (getA st.armies j).team = (getA A0 j).team ∧
        (getA st.armies j).finalDest = (getA A0 j).finalDest) ∧
  (∀ j, i ≤ j → (getA st.armies j).distance = (getA A0 j).distance) ∧
  (∀ j, i ≤ j → atArrival A0 N0 j → (getA st.armies j).troops = (getA A0 j).troops)

/-! ## Invariant bookkeeping for the router

`Game.dijkstra` is verified through the classical Dijkstra invariants,
phrased over the ghost list `L` of extracted ("done") node ids in
extraction order. -/

/-- `distLE a b`: the tentative distance `a` is at most `b`, where `none`
stands for `Infinity`. -/
def distLE (a b : Option ℚ) : Prop :=
  ∀ d, b = some d → ∃ d', a = some d' ∧ d' ≤ d

/-- The state `{ st with done := done[u ↦ true] }` after
`done[nextNodeID] = true`. -/
def markDone (u : ℕ) (st : DijkState) : DijkState :=
  { st with done := fun j => if j = u then true else st.done j }

/-- The part of the router invariant that every single relaxation step
preserves. -/
structure DCore (w : ℕ → ℕ → ℚ) (nodes : List NodeState) (fTeam : Team) (t f : ℕ)
    (L : List ℕ) (st : DijkState) : Prop where
  done_iff : ∀ v, st.done v = true ↔ v ∈ L
  dist_f : st.dist f = some 0
  prev_f : st.prev f = none
  dist_nonneg : ∀ v d, st.dist v = some d → 0 ≤ d
  prev_spec : ∀ v, v ≠ f → ∀ d, st.dist v = some d →
    ∃ u du, st.prev v = some u ∧ u ∈ L ∧ st.dist u = some du ∧ d = du + w u v ∧
      allowedStep nodes fTeam t u v
  prev_order : ∀ v u, st.prev v = some u → u ∈ L ∧
    (v ∈ L → L.indexOf u < L.indexOf v)
  reach : ∀ v d, st.dist v = some d →
    ∃ l, IsPath nodes fTeam t f v l ∧ pathW w l = d
  done_fin : ∀ u ∈ L, ∃ du, st.dist u = some du

/-- The full router invariant, holding at the head of every iteration of
the main loop of `Game.dijkstra`. -/
structure DInv (w : ℕ → ℕ → ℚ) (nodes : List NodeState) (fTeam : Team) (t f : ℕ)
    (L : List ℕ) (st : DijkState) : Prop where
  core : DCore w nodes fTeam t f L st
  nodup : L.Nodup
  mem_lt : ∀ v ∈ L, v < nodes.length
  mem_ne_t : ∀ v ∈ L, v ≠ t
  opt : ∀ u ∈ L, ∀ du, st.dist u = some du →
    ∀ l, IsPath nodes fTeam t f u l → du ≤ pathW w l
  frontier : ∀ x ∈ L, ∀ y, y ∉ L → allowedStep nodes fTeam t x y →
    ∀ dx, st.dist x = some dx → ∃ dy, st.dist y = some dy ∧ dy ≤ dx + w x y
  f_mem : f ∈ L ∨ (L = [] ∧ st = dijkInit f)

/-! # Theorems -/

/-! ## Generic list helpers -/

theorem getD_set_self {α : Type} (l : List α) (i : ℕ) (a d : α) (h : i < l.length) :
    (l.set i a).getD i d = a := by
  simp [List.getD_eq_getElem?_getD, List.getElem?_set, h]

theorem getD_set_ne {α : Type} (l : List α) {i j : ℕ} (a d : α) (h : i ≠ j) :
    (l.set i a).getD j d = l.getD j d := by
  simp [List.getD_eq_getElem?_getD, List.getElem?_set, h]

theorem getD_of_length_le {α : Type} (l : List α) (i : ℕ) (d : α) (h : l.length ≤ i) :
    l.getD i d = d := by
  simp [List.getD_eq_getElem?_getD, List.getElem?_eq_none, h]

theorem getN_set_self (nodes : List NodeState) (i : ℕ) (nd : NodeState)
    (h : i < nodes.length) : getN (nodes.set i nd) i = nd :=
  getD_set_self nodes i nd defaultNode h

theorem getN_set_ne (nodes : List NodeState) {i j : ℕ} (nd : NodeState) (h : i ≠ j) :
    getN (nodes.set i nd) j = getN nodes j :=
  getD_set_ne nodes nd defaultNode h

theorem getN_of_length_le (nodes : List NodeState) (i : ℕ) (h : nodes.length ≤ i) :
    getN nodes i = defaultNode :=
  getD_of_length_le nodes i defaultNode h

/-! ## C1: the proportional-loss combat formula -/

/-- C1, counterexample.  The claim states that for two positive unequal
pools the *smaller* pool's raw loss comes from its own mean-ratio formula
and the larger pool's raw loss is the smaller one's scaled by
`larger / smaller`.  At pools `(80, 160)`, unit modifiers and random draw
`1/2` (loss factor exactly `1`), `MapArmy.battle` produces `(76, 158)` —
the larger pool 160 computes its own raw loss `160/80 = 2` and the
smaller pool takes `2 × (160/80) = 4` — while the claimed rule
(`battleClaim`) would produce `(79, 158)`. -/
theorem battle_smaller_pool_counterexample :
    battle 80 160 1 1 (1 / 2) 0 = (76, 158) ∧
    battleClaim 80 160 1 1 (1 / 2) 0 = (79, 158) ∧
    battle 80 160 1 1 (1 / 2) 0 ≠ battleClaim 80 160 1 1 (1 / 2) 0 := by
  refine ⟨?_, ?_, ?_⟩ <;>
    norm_num [battle, battleClaim, lossMeanRatio, lossRadius, lossFactor, Prod.ext_iff]

/-- C1, amended.  In `MapArmy.battle` applied to two positive, unequal
troop pools, the *larger* pool's raw loss is computed from its own
mean-ratio formula (its own troop count times `1/80` times the uniform
random factor), and the *smaller* pool's raw loss is the larger pool's
raw loss multiplied by the ratio `largerCount / smallerCount`; each final
loss is then multiplied by the applicable combat modifier, rounded up
(ceiling), and subtracted from its pool. -/
theorem battle_unequal_spec (A B mA mB r1 r2 : ℚ) (hA : 0 < A) (hB : 0 < B)
    (hAB : A ≠ B) :
    battle A B mA mB r1 r2 =
      (A - ⌈(if A < B then
              (max A B * lossMeanRatio * lossFactor r1) * (max A B / min A B)
             else max A B * lossMeanRatio * lossFactor r1) * mA⌉,
       B - ⌈(if A < B then max A B * lossMeanRatio * lossFactor r1
             else
              (max A B * lossMeanRatio * lossFactor r1) * (max A B / min A B)) * mB⌉) := by
  rcases lt_or_gt_of_ne hAB with h | h
  · rw [battle, if_neg (by push_neg; exact ⟨hA, hB⟩), max_eq_right h.le, min_eq_left h.le]
    simp [h]
  · rw [battle, if_neg (by push_neg; exact ⟨hA, hB⟩), max_eq_left h.le, min_eq_right h.le]
    simp [not_lt.mpr h.le, h]

/-- C1, witness for `battle_unequal_spec` at pools `(80, 160)`, unit
modifiers, random draw `1/2`. -/
theorem battle_unequal_spec_witness :
    (0 : ℚ) < 80 ∧ (0 : ℚ) < 160 ∧ (80 : ℚ) ≠ 160 ∧
    battle 80 160 1 1 (1 / 2) (1 / 3) = (76, 158) := by
  refine ⟨by norm_num, by norm_num, by norm_num, ?_⟩
  rw [battle_unequal_spec 80 160 1 1 (1 / 2) (1 / 3) (by norm_num) (by norm_num)
    (by norm_num)]
  norm_num [lossMeanRatio, lossRadius, lossFactor]

/-! ## C2: the army serialization -/

/-- C2, counterexample.  The broadcast serialization `MapArmy.toJSON`
does *not* contain the army's final destination: two armies that differ
only in their final destination serialize identically, so no re-hydration
can reconstruct the final destination reference from the serialized
state. -/
theorem armyToJSON_finalDest_counterexample :
    armyToJSON exArmyA = armyToJSON exArmyB ∧ exArmyA.finalDest ≠ exArmyB.finalDest := by
  exact ⟨rfl, by decide⟩

/-- C2, amended.  The non-recursive serialization of an army contains
exactly its origin node id, current-hop destination node id, troop count,
progress along the current edge, owning team and army id — and nothing
else: two serializations are equal precisely when those six fields agree,
independently of the final destination, which is therefore not part of
the broadcast state. -/
theorem armyToJSON_fields (a b : Army) :
    armyToJSON a =
      { fromId := a.fromId, toId := a.toId, troops := a.troops,
        distance := a.distance, team := a.team, id := a.id } ∧
    (armyToJSON a = armyToJSON b ↔
      a.fromId = b.fromId ∧ a.toId = b.toId ∧ a.troops = b.troops ∧
        a.distance = b.distance ∧ a.team = b.team ∧ a.id = b.id) := by
  exact ⟨rfl, by simp [armyToJSON, MapArmyJSON.mk.injEq]⟩

/-! ## C8: the node production step -/

/-- C8.  For every node and tick number: on an odd tick number or when the
node's "was attacked" flag is set, the troop count is unchanged; otherwise
the node gains `2 × (1 + number of adjacent same-team PowerPlant nodes)`
troops if it has a Factory and exactly `1` troop otherwise; in every
branch the "was attacked" flag is false after the call. -/
theorem nodeTick_spec (node : NodeState) (neighbors : List NodeState) (t : ℕ) :
    ((t % 2 = 1 ∨ node.wasAttacked = true) →
      (nodeTick node neighbors t).troops = node.troops) ∧
    (t % 2 = 0 → node.wasAttacked = false →
      (nodeTick node neighbors t).troops = node.troops +
        (if node.type = NodeType.Factory then
          2 * (1 + ((neighbors.filter fun m =>
            decide (m.team = node.team ∧ m.type = NodeType.PowerPlant)).length : ℚ))
         else 1)) ∧
    (nodeTick node neighbors t).wasAttacked = false := by
  refine ⟨?_, ?_, ?_⟩
  · intro h
    have hcond : t % 2 ≠ 0 ∨ node.wasAttacked = true := by
      rcases h with h | h
      · exact Or.inl (by omega)
      · exact Or.inr h
    rcases hcond with h' | h' <;> simp [nodeTick, h']
  · intro h1 h2
    rw [nodeTick, if_neg (by simp [h1, h2])]
    by_cases hf : node.type = NodeType.Factory
    · simp [hf]
      ring
    · simp [hf]
  · rw [nodeTick]
    by_cases hcond : t % 2 ≠ 0 ∨ node.wasAttacked = true
    · rcases hcond with h' | h' <;> simp [h']
    · push_neg at hcond
      have h2 : node.wasAttacked = false := by
        cases hw : node.wasAttacked
        · rfl
        · exact absurd hw hcond.2
      rw [if_neg (by simp [hcond.1, h2])]
      by_cases hf : node.type = NodeType.Factory <;> simp [hf, h2]

/-- C8, witness for `nodeTick_spec` on a red factory node next to one red
power plant, at ticks 2 (production) and 3 (odd, no-op). -/
theorem nodeTick_spec_witness :
    (nodeTick exFactoryNode [exPlantNode] 2).troops = exFactoryNode.troops + 4 ∧
    (nodeTick exFactoryNode [exPlantNode] 3).troops = exFactoryNode.troops ∧
    (nodeTick exFactoryNode [exPlantNode] 2).wasAttacked = false := by
  refine ⟨?_, ?_, (nodeTick_spec exFactoryNode [exPlantNode] 2).2.2⟩
  · rw [(nodeTick_spec exFactoryNode [exPlantNode] 2).2.1 rfl rfl]
    norm_num [exFactoryNode, exPlantNode, defaultNode]
  · exact (nodeTick_spec exFactoryNode [exPlantNode] 3).1 (Or.inl rfl)

/-! ## C9: idempotence of `unassign` -/

/-- C9.  Calling `Game.unassign` twice in succession leaves the game in
exactly the same state, and returns the same result, as calling it once. -/
theorem unassign_idempotent (team : Team) (f : ℕ) (s : GameState) :
    unassign team f (unassign team f s).2 = unassign team f s := by
  by_cases hc : team = Team.Neutral ∨ (getNode s f).team ≠ team
  · simp [unassign, hc]
  · push_neg at hc
    have hlen : f < s.nodes.length := by
      by_contra hge
      push_neg at hge
      have : getNode s f = defaultNode := getN_of_length_le s.nodes f hge
      rw [this] at hc
      exact hc.1 hc.2.symm
    have h1 : unassign team f s =
        (true, setNode s f { getNode s f with assign := none }) := by
      rw [unassign, if_neg (by push_neg; exact hc)]
    rw [h1]
    have hget : getNode (setNode s f { getNode s f with assign := none }) f =
        { getNode s f with assign := none } :=
      getN_set_self s.nodes f _ hlen
    have h2 : unassign team f (setNode s f { getNode s f with assign := none }) =
        (true, setNode (setNode s f { getNode s f with assign := none }) f
          { getNode (setNode s f { getNode s f with assign := none }) f with
              assign := none }) := by
      rw [unassign, if_neg]
      push_neg
      refine ⟨hc.1, ?_⟩
      rw [hget]
      exact hc.2
    rw [h2, hget]
    simp [setNode, List.set_set]

/-! ## C6: `build` -/

/-- C6, counterexample.  The claim's success condition omits the source's
`team !== Neutral` guard: on a neutral-owned node with 300 troops,
`build(Neutral, node, Factory)` satisfies the claim's three conditions
(caller team owns the node, the type differs from the current building,
troops cover the cost 200) yet the call fails. -/
theorem build_neutral_counterexample :
    (getNode exStateNeutralRich 0).team = Team.Neutral ∧
    (getNode exStateNeutralRich 0).type ≠ NodeType.Factory ∧
    buildingCost NodeType.Factory = some 200 ∧
    (200 : ℚ) ≤ (getNode exStateNeutralRich 0).troops ∧
    build Team.Neutral 0 NodeType.Factory exStateNeutralRich =
      (false, exStateNeutralRich) := by
  refine ⟨rfl, by decide, rfl, by norm_num [getNode, getN, exStateNeutralRich, defaultNode], rfl⟩

/-- C6, amended.  For every *non-neutral* team and every building type
with a listed cost (Factory 200, PowerPlant 1000, Fort 500, Artillery
2000): `build` succeeds iff the team owns the node, the type differs from
the node's current building and the node's troops cover the cost; on
success the cost is debited and the building set; on failure the state is
unchanged. -/
theorem build_spec (team : Team) (i : ℕ) (type : NodeType) (s : GameState) (c : ℚ)
    (hteam : team ≠ Team.Neutral) (hcost : buildingCost type = some c) :
    ((build team i type s).1 = true ↔
      (getNode s i).team = team ∧ (getNode s i).type ≠ type ∧
        c ≤ (getNode s i).troops) ∧
    ((build team i type s).1 = true →
      (build team i type s).2 =
        setNode s i
          { getNode s i with type := type, troops := (getNode s i).troops - c }) ∧
    ((build team i type s).1 = false → (build team i type s).2 = s) := by
  have hguard : ¬(team = Team.Neutral ∨ buildingCost type = none) := by
    push_neg
    exact ⟨hteam, by rw [hcost]; exact Option.some_ne_none c⟩
  by_cases hcond : (getNode s i).team = team ∧ (getNode s i).type ≠ type ∧
      c ≤ (getNode s i).troops
  · have : build team i type s =
        (true, setNode s i
          { getNode s i with type := type, troops := (getNode s i).troops - c }) := by
      rw [build, if_neg hguard, if_pos (by rw [hcost]; exact hcond)]
      rw [hcost]
      rfl
    rw [this]
    simp [hcond]
  · have : build team i type s = (false, s) := by
      rw [build, if_neg hguard, if_neg (by rw [hcost]; exact hcond)]
    rw [this]
    simp [hcond]

/-- C6, witness for `build_spec`: a red node with 300 troops builds a
factory, ending with 100 troops and the factory set. -/
theorem build_spec_witness :
    (build Team.Red 0 NodeType.Factory exStateBuild).1 = true ∧
    (getNode (build Team.Red 0 NodeType.Factory exStateBuild).2 0).troops = 100 ∧
    (getNode (build Team.Red 0 NodeType.Factory exStateBuild).2 0).type =
      NodeType.Factory := by
  have h := build_spec Team.Red 0 NodeType.Factory exStateBuild 200 (by decide) rfl
  have hsucc : (build Team.Red 0 NodeType.Factory exStateBuild).1 = true :=
    h.1.mpr ⟨rfl, by decide, by norm_num [getNode, getN, exStateBuild, defaultNode]⟩
  refine ⟨hsucc, ?_, ?_⟩ <;>
    (rw [h.2.1 hsucc]; norm_num [getNode, getN, setNode, exStateBuild, defaultNode])

/-! ## C7: totality and failure purity of the command operations -/

/-- C7.  Every command operation is total (it is a Lean function, and the
source bodies contain no `throw`) and reports failure through its
boolean/optional result; whenever a command reports failure the game
state is exactly as it was before the call, and `getNodeByID` returns
"not found" for every out-of-range id. -/
theorem commands_fail_pure (w : ℕ → ℕ → ℚ) (team : Team) (i t : ℕ)
    (type : NodeType) (troops : ℚ) (nodeID : ℤ) (s : GameState) :
    ((build team i type s).1 = false → (build team i type s).2 = s) ∧
    ((sendArmy w team i t troops s).1 = false → (sendArmy w team i t troops s).2 = s) ∧
    ((assign w team i t s).1 = false → (assign w team i t s).2 = s) ∧
    ((unassign team i s).1 = false → (unassign team i s).2 = s) ∧
    ((forfeit team s).1 = false → (forfeit team s).2 = s) ∧
    ((nodeID < 0 ∨ (s.nodes.length : ℤ) ≤ nodeID) → getNodeByID s nodeID = none) := by
  refine ⟨?_, ?_, ?_, ?_, ?_, ?_⟩
  · simp only [build]
    split_ifs <;> simp
  · simp only [sendArmy]
    split_ifs <;> first | simp | (split <;> simp)
  · simp only [assign]
    split_ifs <;> simp
  · simp only [unassign]
    split_ifs <;> simp
  · simp only [forfeit]
    split_ifs <;> simp
  · intro h
    rw [getNodeByID, if_pos h]

/-- C7, witness for `commands_fail_pure`: red commands against a
blue-owned map fail and leave the state unchanged; `forfeit(Neutral)`
fails and leaves the state unchanged; a negative id is not found. -/
theorem commands_fail_pure_witness :
    (build Team.Red 0 NodeType.Factory exStateBlue).2 = exStateBlue ∧
    (sendArmy exW Team.Red 0 1 5 exStateBlue).2 = exStateBlue ∧
    (assign exW Team.Red 0 1 exStateBlue).2 = exStateBlue ∧
    (unassign Team.Red 0 exStateBlue).2 = exStateBlue ∧
    (forfeit Team.Neutral exStateBlue).2 = exStateBlue ∧
    getNodeByID exStateBlue (-3) = none := by
  have h := commands_fail_pure exW Team.Red 0 1 NodeType.Factory 5 (-3) exStateBlue
  have h2 := commands_fail_pure exW Team.Neutral 0 1 NodeType.Factory 5 (-3) exStateBlue
  exact ⟨h.1 rfl, h.2.1 rfl, h.2.2.1 rfl, h.2.2.2.1 rfl, h2.2.2.2.2.1 rfl,
    h.2.2.2.2.2 (by norm_num [exStateBlue])⟩

/-! ## C10: `assign` reports success and erases unroutable orders -/

/-- C10.  For every non-neutral team and node `from` owned by that team,
`assign(team, from, to)` returns true for every target; when the router
finds no path it sets the standing-order target of `from` to none —
erasing any previously assigned standing order — while still reporting
success. -/
theorem assign_spec (w : ℕ → ℕ → ℚ) (team : Team) (f t : ℕ) (s : GameState)
    (hteam : team ≠ Team.Neutral) (hown : (getNode s f).team = team) :
    (assign w team f t s).1 = true ∧
    (dijkstra w s.nodes f t = none →
      (getNode (assign w team f t s).2 f).assign = none) := by
  have hguard : ¬(team = Team.Neutral ∨ (getNode s f).team ≠ team) := by
    push_neg
    exact ⟨hteam, hown⟩
  have hstep : assign w team f t s =
      (true, setNode s f
        { getNode s f with
            assign := if dijkstra w s.nodes f t = none then none else some t }) := by
    rw [assign, if_neg hguard]
  have hlen : f < s.nodes.length := by
    by_contra hge
    push_neg at hge
    rw [getNode, getN_of_length_le s.nodes f hge] at hown
    exact hteam hown.symm
  refine ⟨by rw [hstep], ?_⟩
  intro hd
  rw [hstep]
  show (getN (s.nodes.set f _) f).assign = none
  rw [getN_set_self s.nodes f _ hlen]
  simp [hd]

/-- C10, witness for `assign_spec`: assigning the red node 0 toward the
out-of-range target 99 reports success and clears the order. -/
theorem assign_spec_witness :
    (assign exW Team.Red 0 99 exState).1 = true ∧
    (getNode (assign exW Team.Red 0 99 exState).2 0).assign = none := by
  have h := assign_spec exW Team.Red 0 99 exState (by decide) rfl
  exact ⟨h.1, h.2 (by decide)⟩

/-! ## C5: `sendArmy` -/

/-- C5, counterexample.  The claim's hypotheses (source owned by the
calling team, no enemy army incoming on the edge, destination reachable)
also hold for the neutral team on a neutral-owned node, where the source's
`team === Neutral` guard makes the call fail with no dispatch instead of
dispatching the clamped amount. -/
theorem sendArmy_neutral_counterexample :
    (getNode exStateNeutral 0).team = Team.Neutral ∧
    exStateNeutral.armies = [] ∧
    dijkstra exW exStateNeutral.nodes 0 1 = some 1 ∧
    (getNode exStateNeutral 0).troops = 50 ∧
    sendArmy exW Team.Neutral 0 1 1000 exStateNeutral = (false, exStateNeutral) := by
  exact ⟨rfl, rfl, by decide, by norm_num [getNode, getN, exStateNeutral, defaultNode], rfl⟩

/-- C5, amended.  For every call `sendArmy(team, from, to, troops)` where
`team` is *not neutral*, `from` is owned by `team`, no enemy army is
arriving at `from` along the from–to edge, and the destination is
reachable: the number of troops dispatched is the minimum of the
requested amount and the troops present on `from`, that amount is debited
from `from`, and a clamped amount of zero is a no-op reported as success
with no army created. -/
theorem sendArmy_spec (w : ℕ → ℕ → ℚ) (team : Team) (f t : ℕ) (req : ℚ)
    (s : GameState) (target : ℕ)
    (hteam : team ≠ Team.Neutral)
    (hown : (getNode s f).team = team)
    (hblock : ∀ ar ∈ s.armies,
      ¬(ar.fromId = t ∧ ar.toId = f ∧ ar.team ≠ team ∧
        ar.distance = edgeLen s.nodes f t))
    (hreach : dijkstra w s.nodes f t = some target) :
    (min req (getNode s f).troops = 0 → sendArmy w team f t req s = (true, s)) ∧
    (min req (getNode s f).troops ≠ 0 →
      sendArmy w team f t req s =
        (true,
          { s with
            nodes := s.nodes.set f
              { getNode s f with
                  troops := (getNode s f).troops - min req (getNode s f).troops },
            armies := s.armies ++
              [{ fromId := f, toId := target,
                 troops := min req (getNode s f).troops, team := team,
                 finalDest := t, id := s.armyCounter, distance := 0 }],
            armyCounter := s.armyCounter + 1 })) := by
  have hguard1 : ¬((getNode s f).team ≠ team ∨ team = Team.Neutral) := by
    push_neg
    exact ⟨hown, hteam⟩
  have hguard2 : (s.armies.any fun ar =>
      decide (ar.fromId = t ∧ ar.toId = f ∧ ar.team ≠ team ∧
        ar.distance = edgeLen s.nodes f t)) = false := by
    rw [List.any_eq_false]
    intro ar har
    simpa using hblock ar har
  constructor
  · intro hz
    rw [sendArmy, if_neg hguard1, if_neg (by rw [hguard2]; exact Bool.false_ne_true),
      if_pos hz]
  · intro hnz
    rw [sendArmy, if_neg hguard1, if_neg (by rw [hguard2]; exact Bool.false_ne_true),
      if_neg hnz, hreach, hown]
    simp [hown]

/-- C5, witness for `sendArmy_spec`: requesting 1000 troops from a red
node holding 50 dispatches exactly 50, leaving the node at 0; requesting
0 is a success with no army created. -/
theorem sendArmy_spec_witness :
    (sendArmy exW Team.Red 0 1 1000 exStateSend).1 = true ∧
    (getNode (sendArmy exW Team.Red 0 1 1000 exStateSend).2 0).troops = 0 ∧
    (sendArmy exW Team.Red 0 1 1000 exStateSend).2.armies.map Army.troops = [50] ∧
    sendArmy exW Team.Red 0 1 0 exStateSend = (true, exStateSend) := by
  have h := sendArmy_spec exW Team.Red 0 1 1000 exStateSend 1 (by decide) rfl
    (by intro ar har; simp [exStateSend] at har) (by decide)
  have h0 := sendArmy_spec exW Team.Red 0 1 0 exStateSend 1 (by decide) rfl
    (by intro ar har; simp [exStateSend] at har) (by decide)
  have hmin : min (1000 : ℚ) (getNode exStateSend 0).troops = 50 := by
    norm_num [getNode, getN, exStateSend, defaultNode]
  have hsend := h.2 (by rw [hmin]; norm_num)
  refine ⟨by rw [hsend], ?_, ?_, ?_⟩
  · rw [hsend]
    show (getN (exStateSend.nodes.set 0 _) 0).troops = 0
    rw [getN_set_self _ 0 _ (by norm_num [exStateSend])]
    rw [hmin]
    norm_num [getNode, getN, exStateSend, defaultNode]
  · rw [hsend, hmin]
    simp [exStateSend]
  · exact h0.1 (by norm_num [getNode, getN, exStateSend, defaultNode])

/-! ## C3: helper lemmas for the tick invariant -/

theorem getD_set {α : Type} (l : List α) (i : ℕ) (v d : α) (m : ℕ) :
    (l.set i v).getD m d = if i = m ∧ i < l.length then v else l.getD m d := by
  by_cases h : i = m ∧ i < l.length
  · rw [if_pos h, ← h.1, getD_set_self l i v d h.2]
  · rw [if_neg h]
    by_cases h1 : i = m
    · have h2 : l.length ≤ i := by
        by_contra h2
        push_neg at h2
        exact h ⟨h1, h2⟩
      rw [List.set_eq_of_length_le h2]
    · exact getD_set_ne l v d h1

theorem getA_set (armies : List Army) (i : ℕ) (b : Army) (m : ℕ) :
    getA (armies.set i b) m = if i = m ∧ i < armies.length then b else getA armies m :=
  getD_set armies i b defaultArmy m

theorem getN_set (nodes : List NodeState) (i : ℕ) (v : NodeState) (m : ℕ) :
    getN (nodes.set i v) m = if i = m ∧ i < nodes.length then v else getN nodes m :=
  getD_set nodes i v defaultNode m

theorem getN_troops_nonneg {nodes : List NodeState}
    (h : ∀ nd ∈ nodes, 0 ≤ nd.troops) (i : ℕ) : 0 ≤ (getN nodes i).troops := by
  by_cases hi : i < nodes.length
  · have : getN nodes i ∈ nodes := by
      rw [getN, List.getD_eq_getElem?_getD, List.getElem?_eq_getElem hi]
      exact List.getElem_mem hi
    exact h _ this
  · rw [getN_of_length_le nodes i (not_lt.mp hi)]
    norm_num [defaultNode]

theorem getA_troops_pos {armies : List Army}
    (h : ∀ a ∈ armies, 0 < a.troops) {i : ℕ} (hi : i < armies.length) :
    0 < (getA armies i).troops := by
  have : getA armies i ∈ armies := by
    rw [getA, List.getD_eq_getElem?_getD, List.getElem?_eq_getElem hi]
    exact List.getElem_mem hi
  exact h _ this

theorem forall_mem_set {α : Type} {P : α → Prop} {l : List α} {i : ℕ} {a : α}
    (h : ∀ x ∈ l, P x) (ha : P a) : ∀ x ∈ l.set i a, P x := by
  intro x hx
  rcases List.mem_or_eq_of_mem_set hx with hx' | rfl
  · exact h x hx'
  · exact ha

theorem foldl_inv {σ β : Type} (P : σ → Prop) (f : σ → β → σ) :
    ∀ (l : List β) (s : σ), P s → (∀ st b, b ∈ l → P st → P (f st b)) → P (l.foldl f s)
  | [], _, h0, _ => h0
  | b :: l, s, h0, hstep =>
    foldl_inv P f l (f s b) (hstep s b (List.mem_cons_self b l) h0)
      fun st b' hb' => hstep st b' (List.mem_cons_of_mem b hb')

theorem foldl_range_inv {σ : Type} (P : ℕ → σ → Prop) (f : σ → ℕ → σ) :
    ∀ (n : ℕ) (s : σ), P 0 s → (∀ i st, i < n → P i st → P (i + 1) (f st i)) →
      P n ((List.range n).foldl f s) := by
  intro n
  induction n with
  | zero => intro s h0 _; simpa using h0
  | succ n ih =>
    intro s h0 hstep
    rw [List.range_succ, List.foldl_append, List.foldl_cons, List.foldl_nil]
    exact hstep n _ (Nat.lt_succ_self n)
      (ih s h0 fun i st hi => hstep i st (Nat.lt_succ_of_lt hi))

theorem edgeLen_congr {nodes nodes' : List NodeState}
    (h : ∀ m, (getN nodes' m).x = (getN nodes m).x ∧ (getN nodes' m).y = (getN nodes m).y)
    (i j : ℕ) : edgeLen nodes' i j = edgeLen nodes i j := by
  unfold edgeLen intDistance sqDist
  rw [(h i).1, (h i).2, (h j).1, (h j).2]

theorem edgeLen_self (nodes : List NodeState) (i : ℕ) : edgeLen nodes i i = 0 := by
  unfold edgeLen intDistance
  have h : sqDist (getN nodes i) (getN nodes i) = 0 := by
    unfold sqDist
    ring
  rw [h]
  rfl

theorem sortArmies_mem (armies : List Army) (a : Army) :
    a ∈ sortArmies armies ↔ a ∈ armies :=
  (List.mergeSort_perm armies _).mem_iff

theorem sortArmies_sorted (armies : List Army) :
    ∀ p q, p < q →
      (getA (sortArmies armies) q).distance ≤ (getA (sortArmies armies) p).distance := by
  have hpair : List.Pairwise
      (fun a b : Army => (decide (b.distance ≤ a.distance)) = true)
      (sortArmies armies) := by
    refine List.sorted_mergeSort ?_ ?_ armies
    · intro a b c hab hbc
      simp only [decide_eq_true_eq] at hab hbc ⊢
      exact hbc.trans hab
    · intro a b
      simp only [Bool.or_eq_true, decide_eq_true_eq]
      exact Nat.le_total b.distance a.distance
  intro p q hpq
  by_cases hq : q < (sortArmies armies).length
  · have hp : p < (sortArmies armies).length := hpq.trans hq
    have := (List.pairwise_iff_getElem.mp hpair) p q hp hq hpq
    simp only [decide_eq_true_eq] at this
    have hgp : getA (sortArmies armies) p = (sortArmies armies)[p] := by
      rw [getA, List.getD_eq_getElem?_getD, List.getElem?_eq_getElem hp]
      rfl
    have hgq : getA (sortArmies armies) q = (sortArmies armies)[q] := by
      rw [getA, List.getD_eq_getElem?_getD, List.getElem?_eq_getElem hq]
      rfl
    rw [hgp, hgq]
    exact this
  · rw [getA, getD_of_length_le _ q _ (not_lt.mp hq)]
    exact Nat.zero_le _

/-- Generic step for `TickInv`: to pass from `i` to `i + 1` it suffices
that the new state's components relate to the old ones as every branch of
`processArmy` does. -/
theorem TickInv_update (A0 : List Army) (N0 : List NodeState) (i : ℕ) (st : TickState)
    (h : TickInv A0 N0 i st)
    (nodes' : List NodeState) (armies' : List Army) (send' : List (ℕ × ℕ × ℚ)) (k' : ℕ)
    (hn1 : ∀ nd ∈ nodes', 0 ≤ nd.troops)
    (hn2 : ∀ m, (getN nodes' m).x = (getN st.nodes m).x ∧
                (getN nodes' m).y = (getN st.nodes m).y)
    (hts : ∀ e ∈ send', 0 < e.2.2)
    (hf : ∀ j, (getA armies' j).fromId = (getA st.armies j).fromId ∧
               (getA armies' j).toId = (getA st.armies j).toId ∧
               (getA armies' j).team = (getA st.armies j).team ∧
               (getA armies' j).finalDest = (getA st.armies j).finalDest)
    (hd : ∀ j, i + 1 ≤ j → (getA armies' j).distance = (getA st.armies j).distance)
    (ht : ∀ j, i + 1 ≤ j → atArrival A0 N0 j →
      (getA armies' j).troops = (getA st.armies j).troops) :
    TickInv A0 N0 (i + 1) ⟨nodes', armies', send', k'⟩ := by
  obtain ⟨hN1, hN2, hS, hF, hD, hT⟩ := h
  refine ⟨hn1, ?_, hts, ?_, ?_, ?_⟩
  · intro m
    exact ⟨(hn2 m).1.trans (hN2 m).1, (hn2 m).2.trans (hN2 m).2⟩
  · intro j
    obtain ⟨f1, f2, f3, f4⟩ := hf j
    obtain ⟨g1, g2, g3, g4⟩ := hF j
    exact ⟨f1.trans g1, f2.trans g2, f3.trans g3, f4.trans g4⟩
  · intro j hj
    exact (hd j hj).trans (hD j (Nat.le_of_succ_le hj))
  · intro j hj harr
    exact (ht j hj harr).trans (hT j (Nat.le_of_succ_le hj) harr)

/-- Invariant step for a branch that rewrites one node (keeping its
position), rewrites the processed army `i` without touching its
route fields, and extends the dispatch list. -/
theorem TickInv_step_one (A0 : List Army) (N0 : List NodeState) (i : ℕ) (st : TickState)
    (h : TickInv A0 N0 i st)
    (p : ℕ) (nd : NodeState) (b : Army) (send' : List (ℕ × ℕ × ℚ)) (k' : ℕ)
    (hnd : 0 ≤ nd.troops)
    (hx : nd.x = (getN st.nodes p).x) (hy : nd.y = (getN st.nodes p).y)
    (hb1 : b.fromId = (getA st.armies i).fromId)
    (hb2 : b.toId = (getA st.armies i).toId)
    (hb3 : b.team = (getA st.armies i).team)
    (hb4 : b.finalDest = (getA st.armies i).finalDest)
    (hts : ∀ e ∈ send', 0 < e.2.2) :
    TickInv A0 N0 (i + 1) ⟨st.nodes.set p nd, st.armies.set i b, send', k'⟩ := by
  refine TickInv_update A0 N0 i st h _ _ _ _ ?_ ?_ hts ?_ ?_ ?_
  · exact forall_mem_set h.1 hnd
  · intro m
    rw [getN_set]
    split_ifs with hc
    · rw [← hc.1]
      exact ⟨hx, hy⟩
    · exact ⟨rfl, rfl⟩
  · intro j
    rw [getA_set]
    split_ifs with hc
    · rw [← hc.1]
      exact ⟨hb1, hb2, hb3, hb4⟩
    · exact ⟨rfl, rfl, rfl, rfl⟩
  · intro j hj
    rw [getA_set, if_neg ?_]
    rintro ⟨rfl, -⟩
    omega
  · intro j hj _
    rw [getA_set, if_neg ?_]
    rintro ⟨rfl, -⟩
    omega

/-- Invariant step for a branch that only rewrites the processed army
itself (its progress may change, its route fields may not). -/
theorem TickInv_step_selfarmy (A0 : List Army) (N0 : List NodeState) (i : ℕ)
    (st : TickState) (h : TickInv A0 N0 i st) (b : Army) (k' : ℕ)
    (hb1 : b.fromId = (getA st.armies i).fromId)
    (hb2 : b.toId = (getA st.armies i).toId)
    (hb3 : b.team = (getA st.armies i).team)
    (hb4 : b.finalDest = (getA st.armies i).finalDest) :
    TickInv A0 N0 (i + 1) ⟨st.nodes, st.armies.set i b, st.toSend, k'⟩ := by
  refine TickInv_update A0 N0 i st h _ _ _ _ h.1 (fun m => ⟨rfl, rfl⟩) h.2.2.1 ?_ ?_ ?_
  · intro j
    rw [getA_set]
    split_ifs with hc
    · rw [← hc.1]
      exact ⟨hb1, hb2, hb3, hb4⟩
    · exact ⟨rfl, rfl, rfl, rfl⟩
  · intro j hj
    rw [getA_set, if_neg ?_]
    rintro ⟨rfl, -⟩
    omega
  · intro j hj _
    rw [getA_set, if_neg ?_]
    rintro ⟨rfl, -⟩
    omega

/-- Invariant step for a branch that leaves the nodes and dispatch list
alone and rewrites the army array so that route fields and progress are
everywhere preserved, troop counts possibly not. -/
theorem TickInv_step_armies (A0 : List Army) (N0 : List NodeState) (i : ℕ)
    (st : TickState) (h : TickInv A0 N0 i st) (armies' : List Army) (k' : ℕ)
    (hfd : ∀ m, (getA armies' m).fromId = (getA st.armies m).fromId ∧
                (getA armies' m).toId = (getA st.armies m).toId ∧
                (getA armies' m).team = (getA st.armies m).team ∧
                (getA armies' m).finalDest = (getA st.armies m).finalDest ∧
                (getA armies' m).distance = (getA st.armies m).distance)
    (htr : ∀ m, i + 1 ≤ m → atArrival A0 N0 m →
      (getA armies' m).troops = (getA st.armies m).troops) :
    TickInv A0 N0 (i + 1) ⟨st.nodes, armies', st.toSend, k'⟩ := by
  refine TickInv_update A0 N0 i st h _ _ _ _ h.1 (fun m => ⟨rfl, rfl⟩) h.2.2.1 ?_ ?_ htr
  · intro j
    exact ⟨(hfd j).1, (hfd j).2.1, (hfd j).2.2.1, (hfd j).2.2.2.1⟩
  · intro j _
    exact (hfd j).2.2.2.2

/-- A double in-place update that changes only troop counts preserves the
route fields and progress of every army of the array. -/
theorem getA_setset_routes (armies : List Army) (i j : ℕ) (b c : Army)
    (hb : b.fromId = (getA armies i).fromId ∧ b.toId = (getA armies i).toId ∧
          b.team = (getA armies i).team ∧ b.finalDest = (getA armies i).finalDest ∧
          b.distance = (getA armies i).distance)
    (hc : c.fromId = (getA armies j).fromId ∧ c.toId = (getA armies j).toId ∧
          c.team = (getA armies j).team ∧ c.finalDest = (getA armies j).finalDest ∧
          c.distance = (getA armies j).distance) :
    ∀ m, (getA ((armies.set i b).set j c) m).fromId = (getA armies m).fromId ∧
         (getA ((armies.set i b).set j c) m).toId = (getA armies m).toId ∧
         (getA ((armies.set i b).set j c) m).team = (getA armies m).team ∧
         (getA ((armies.set i b).set j c) m).finalDest = (getA armies m).finalDest ∧
         (getA ((armies.set i b).set j c) m).distance = (getA armies m).distance := by
  intro m
  rw [getA_set, List.length_set]
  split_ifs with h1
  · rw [← h1.1]
    exact hc
  · rw [getA_set]
    split_ifs with h2
    · rw [← h2.1]
      exact hb
    · exact ⟨rfl, rfl, rfl, rfl, rfl⟩

/-- A double in-place update does not change armies at other indices. -/
theorem getA_setset_other (armies : List Army) (i j : ℕ) (b c : Army) (m : ℕ)
    (hmi : m ≠ i) (hmj : m ≠ j) :
    getA ((armies.set i b).set j c) m = getA armies m := by
  rw [getA_set, if_neg (by rintro ⟨rfl, -⟩; exact hmj rfl), getA_set,
    if_neg (by rintro ⟨rfl, -⟩; exact hmi rfl)]

/-- `MapArmy.battleNode` preserves the tick invariant: in every branch the
target node's troop count stays non-negative, its position is untouched,
and only the processed army's troop count changes. -/
theorem battleNode_inv (r : ℕ → ℚ) (A0 : List Army) (N0 : List NodeState) (i : ℕ)
    (st : TickState) (h : TickInv A0 N0 i st) :
    TickInv A0 N0 (i + 1) (battleNode r st i) := by
  simp only [battleNode]
  split_ifs <;>
    refine TickInv_step_one A0 N0 i st h _ _ _ _ _ ?_ rfl rfl rfl rfl rfl rfl h.2.2.1 <;>
      first
        | exact le_rfl
        | exact le_of_lt (by assumption)
        | exact le_of_lt (not_le.mp (by assumption))

/-- `MapArmy.battleEdge` preserves the tick invariant, provided the
collision partner `j`, when still unprocessed, is not at arrival. -/
theorem battleEdge_inv (r : ℕ → ℚ) (A0 : List Army) (N0 : List NodeState) (i : ℕ)
    (st : TickState) (h : TickInv A0 N0 i st) (j : ℕ)
    (hjT : i + 1 ≤ j → ¬atArrival A0 N0 j) :
    TickInv A0 N0 (i + 1) (battleEdge r st i j) := by
  simp only [battleEdge]
  refine TickInv_step_armies A0 N0 i st h _ _ ?_ ?_
  · exact getA_setset_routes st.armies i j _ _ ⟨rfl, rfl, rfl, rfl, rfl⟩
      ⟨rfl, rfl, rfl, rfl, rfl⟩
  · intro m hm harr
    rcases eq_or_ne m j with rfl | hmj
    · exact absurd harr (hjT hm)
    · rw [getA_setset_other st.armies i j _ _ m (by omega) hmj]

/-- The in-transit branch preserves the tick invariant.  A tail-collision
partner is always an already-processed army (descending-progress order),
and a head-collision partner still to be processed is strictly inside its
edge, so no unprocessed army at arrival is ever damaged. -/
theorem processTransit_inv (r : ℕ → ℚ) (A0 : List Army) (N0 : List NodeState)
    (hS : ∀ p q, p < q → (getA A0 q).distance ≤ (getA A0 p).distance)
    (i : ℕ) (st : TickState) (h : TickInv A0 N0 i st) :
    TickInv A0 N0 (i + 1) (processTransit r st i) := by
  have hF := h.2.2.2.1
  have hD := h.2.2.2.2.1
  have hEdge := edgeLen_congr h.2.1
  simp only [processTransit]
  split
  · exact TickInv_step_selfarmy A0 N0 i st h _ _ rfl rfl rfl rfl
  · rename_i j hfind
    obtain ⟨hjlen, hcol, -⟩ := List.findIdx?_eq_some_iff_getElem.mp hfind
    have hgj : getA st.armies j = st.armies[j] := by
      rw [getA, List.getD_eq_getElem?_getD, List.getElem?_eq_getElem hjlen]
      rfl
    have hcol' : collides st.nodes (getA st.armies i) (getA st.armies j) := by
      rw [hgj]
      exact of_decide_eq_true hcol
    by_cases htail : areCollidingTail (getA st.armies i) (getA st.armies j)
    · rw [if_pos htail]
      have hji : j < i := by
        by_contra hge
        push_neg at hge
        rcases Nat.eq_or_lt_of_le hge with heq | hlt
        · have h2 := htail.2
          rw [← heq] at h2
          omega
        · have h1 : (getA st.armies j).distance = (getA A0 j).distance :=
            hD j (le_of_lt hlt)
          have h2 : (getA st.armies i).distance = (getA A0 i).distance := hD i le_rfl
          have h3 := hS i j hlt
          have h4 := htail.2
          omega
      by_cases hmerge : (getA st.armies i).team = (getA st.armies j).team ∧
          (getA st.armies i).finalDest = (getA st.armies j).finalDest
      · rw [if_pos hmerge]
        refine TickInv_step_armies A0 N0 i st h _ _ ?_ ?_
        · exact getA_setset_routes st.armies j i _ _ ⟨rfl, rfl, rfl, rfl, rfl⟩
            ⟨rfl, rfl, rfl, rfl, rfl⟩
        · intro m hm _
          rw [getA_setset_other st.armies j i _ _ m (by omega) (by omega)]
      · rw [if_neg hmerge]
        exact battleEdge_inv r A0 N0 i st h j fun hj' => absurd hj' (by omega)
    · rw [if_neg htail]
      have hhead := hcol'.resolve_left htail
      refine battleEdge_inv r A0 N0 i st h j ?_
      intro hij harrj
      obtain ⟨⟨hopp, hheadeq⟩, -⟩ := hhead
      obtain ⟨ho1, ho2⟩ := hopp
      have hfj := hF j
      have hdj : (getA st.armies j).distance = (getA A0 j).distance :=
        hD j (Nat.le_of_succ_le hij)
      unfold atArrival at harrj
      rw [← hfj.1, ← hfj.2.1, ← hdj, ← ho1, ← ho2, ← hEdge] at harrj
      omega

/-- The body of the army-tick loop preserves the tick invariant. -/
theorem processArmy_inv (r : ℕ → ℚ) (A0 : List Army) (N0 : List NodeState)
    (hS : ∀ p q, p < q → (getA A0 q).distance ≤ (getA A0 p).distance)
    (hA0 : ∀ a ∈ A0, 0 < a.troops)
    (i : ℕ) (hi : i < A0.length) (st : TickState) (h : TickInv A0 N0 i st) :
    TickInv A0 N0 (i + 1) (processArmy r st i) := by
  simp only [processArmy]
  by_cases harr : (getA st.armies i).distance =
      edgeLen st.nodes (getA st.armies i).fromId (getA st.armies i).toId
  · rw [if_pos harr]
    by_cases hteam : (getA st.armies i).team ≠
        (getN st.nodes (getA st.armies i).toId).team
    · rw [if_pos hteam]
      exact battleNode_inv r A0 N0 i st h
    · rw [if_neg hteam]
      have harr0 : atArrival A0 N0 i := by
        unfold atArrival
        rw [← (h.2.2.2.1 i).1, ← (h.2.2.2.1 i).2.1, ← h.2.2.2.2.1 i le_rfl,
          ← edgeLen_congr h.2.1]
        exact harr
      have htpos : 0 < (getA st.armies i).troops := by
        rw [h.2.2.2.2.2 i le_rfl harr0]
        exact getA_troops_pos hA0 hi
      refine TickInv_step_one A0 N0 i st h _ _ _ _ _ ?_ rfl rfl rfl rfl rfl rfl ?_
      · exact add_nonneg (getN_troops_nonneg h.1 _) (le_of_lt htpos)
      · split_ifs
        · intro e he
          rcases List.mem_append.mp he with he' | he'
          · exact h.2.2.1 e he'
          · rcases List.mem_singleton.mp he' with rfl
            exact htpos
        · exact h.2.2.1
  · rw [if_neg harr]
    exact processTransit_inv r A0 N0 hS i st h

/-- C3, core step: one `MapArmy.tick` keeps node troops non-negative,
keeps every surviving army's troop count strictly positive, and schedules
only continuation dispatches with positive troop counts. -/
theorem armiesTick_inv (r : ℕ → ℚ) (nodes : List NodeState) (armies : List Army)
    (hN : ∀ nd ∈ nodes, 0 ≤ nd.troops) (hA : ∀ a ∈ armies, 0 < a.troops) :
    (∀ nd ∈ (armiesTick r nodes armies).nodes, 0 ≤ nd.troops) ∧
    (∀ a ∈ (armiesTick r nodes armies).armies, 0 < a.troops) ∧
    (∀ e ∈ (armiesTick r nodes armies).toSend, 0 < e.2.2) := by
  have hA0 : ∀ a ∈ sortArmies armies, 0 < a.troops := fun a ha =>
    hA a ((sortArmies_mem armies a).mp ha)
  have hS := sortArmies_sorted armies
  have hInv0 : TickInv (sortArmies armies) nodes 0
      ⟨nodes, sortArmies armies, [], 0⟩ :=
    ⟨hN, fun _ => ⟨rfl, rfl⟩, by simp, fun _ => ⟨rfl, rfl, rfl, rfl⟩,
      fun _ _ => rfl, fun _ _ _ => rfl⟩
  have hfold : TickInv (sortArmies armies) nodes (sortArmies armies).length
      ((List.range (sortArmies armies).length).foldl (processArmy r)
        ⟨nodes, sortArmies armies, [], 0⟩) := by
    refine foldl_range_inv (fun i stx => TickInv (sortArmies armies) nodes i stx)
      (processArmy r) (sortArmies armies).length _ hInv0 ?_
    intro i stx hi hInv
    exact processArmy_inv r (sortArmies armies) nodes hS hA0 i hi stx hInv
  simp only [armiesTick]
  refine ⟨hfold.1, ?_, hfold.2.2.1⟩
  intro a ha
  exact of_decide_eq_true (List.mem_filter.mp ha).2

/-- `MapNode.tick` never decreases a node's troop count. -/
theorem nodeTick_troops_le (node : NodeState) (neighbors : List NodeState) (t : ℕ) :
    node.troops ≤ (nodeTick node neighbors t).troops := by
  simp only [nodeTick]
  split_ifs
  · exact le_rfl
  · dsimp only
    have h0 : (0 : ℚ) ≤ (1 + ((neighbors.filter fun m =>
        decide (m.team = node.team ∧ m.type = NodeType.PowerPlant)).length : ℚ)) * 2 := by
      positivity
    linarith
  · dsimp only
    linarith

/-- `Game.sendArmy` with a non-negative request keeps node troops
non-negative and all active armies strictly positive. -/
theorem sendArmy_preserves (w : ℕ → ℕ → ℚ) (team : Team) (f t : ℕ) (req : ℚ)
    (s : GameState) (hreq : 0 ≤ req)
    (hN : ∀ nd ∈ s.nodes, 0 ≤ nd.troops) (hA : ∀ a ∈ s.armies, 0 < a.troops) :
    (∀ nd ∈ (sendArmy w team f t req s).2.nodes, 0 ≤ nd.troops) ∧
    (∀ a ∈ (sendArmy w team f t req s).2.armies, 0 < a.troops) := by
  simp only [sendArmy]
  split_ifs with h1 h2 h3
  · exact ⟨hN, hA⟩
  · exact ⟨hN, hA⟩
  · exact ⟨hN, hA⟩
  · split
    · exact ⟨hN, hA⟩
    · rename_i target hd
      have htr0 : 0 ≤ min req (getNode s f).troops :=
        le_min hreq (getN_troops_nonneg hN f)
      refine ⟨?_, ?_⟩
      · refine forall_mem_set hN ?_
        show 0 ≤ (getNode s f).troops - min req (getNode s f).troops
        have := min_le_right req (getNode s f).troops
        linarith
      · intro a ha
        rcases List.mem_append.mp ha with ha' | ha'
        · exact hA a ha'
        · rcases List.mem_singleton.mp ha' with rfl
          exact lt_of_le_of_ne htr0 (Ne.symm h3)

/-- One pass of the per-node loop of `Game.tick` preserves the game
invariant. -/
theorem nodeLoopStep_preserves (w : ℕ → ℕ → ℚ) (tickN : ℕ) (s : GameState) (i : ℕ)
    (hN : ∀ nd ∈ s.nodes, 0 ≤ nd.troops) (hA : ∀ a ∈ s.armies, 0 < a.troops) :
    (∀ nd ∈ (nodeLoopStep w tickN s i).nodes, 0 ≤ nd.troops) ∧
    (∀ a ∈ (nodeLoopStep w tickN s i).armies, 0 < a.troops) := by
  have hs1N : ∀ nd ∈ (nodeTickAt tickN s i).nodes, 0 ≤ nd.troops := by
    simp only [nodeTickAt, setNode]
    exact forall_mem_set hN
      ((getN_troops_nonneg hN i).trans (nodeTick_troops_le _ _ _))
  have hs1A : ∀ a ∈ (nodeTickAt tickN s i).armies, 0 < a.troops := hA
  simp only [nodeLoopStep]
  split
  · exact ⟨hs1N, hs1A⟩
  · rename_i target hasg
    have hsend := sendArmy_preserves w (getNode (nodeTickAt tickN s i) i).team i
      target (getNode (nodeTickAt tickN s i) i).troops (nodeTickAt tickN s i)
      (getN_troops_nonneg hs1N i) hs1N hs1A
    split_ifs with h8 hok
    · exact hsend
    · refine ⟨?_, hsend.2⟩
      simp only [setNode]
      exact forall_mem_set hsend.1 (getN_troops_nonneg hsend.1 i)
    · exact ⟨hs1N, hs1A⟩

/-- C3.  For every game state satisfying the standing invariant (no node
with negative troops, every active army strictly positive) and every call
to `Game.tick()`: when the tick completes, every node's troop count is
non-negative, and every army remaining in the active army set has a
strictly positive troop count (armies whose troops reached zero or below
during the tick have been removed by the survivor filter, and armies
dispatched during the tick are created with positive troops). -/
theorem gameTick_invariant (w : ℕ → ℕ → ℚ) (r : ℕ → ℚ) (s : GameState)
    (hN : ∀ nd ∈ s.nodes, 0 ≤ nd.troops) (hA : ∀ a ∈ s.armies, 0 < a.troops) :
    (∀ nd ∈ (gameTick w r s).nodes, 0 ≤ nd.troops) ∧
    (∀ a ∈ (gameTick w r s).armies, 0 < a.troops) := by
  obtain ⟨hN1, hA1, hS1⟩ := armiesTick_inv r s.nodes s.armies hN hA
  simp only [gameTick]
  refine foldl_inv (fun st : GameState =>
      (∀ nd ∈ st.nodes, 0 ≤ nd.troops) ∧ (∀ a ∈ st.armies, 0 < a.troops))
    _ _ _ ?_ ?_
  · refine foldl_inv (fun st : GameState =>
        (∀ nd ∈ st.nodes, 0 ≤ nd.troops) ∧ (∀ a ∈ st.armies, 0 < a.troops))
      _ _ _ ⟨hN1, hA1⟩ ?_
    intro st b _ hP
    exact nodeLoopStep_preserves w (s.tickNumber + 1) st b hP.1 hP.2
  · intro st e he hP
    exact sendArmy_preserves w (getN st.nodes e.1).team e.1 e.2.1 e.2.2 st
      (le_of_lt (hS1 e he)) hP.1 hP.2

/-- C3, witness for `gameTick_invariant` on the three-node fixture with
one army in flight. -/
theorem gameTick_invariant_witness :
    (∀ nd ∈ (gameTick exW exR exTickFixture).nodes, 0 ≤ nd.troops) ∧
    (∀ a ∈ (gameTick exW exR exTickFixture).armies, 0 < a.troops) :=
  gameTick_invariant exW exR exTickFixture (by decide) (by decide)

/-! ## C4: basic facts about the option order and path weights -/

theorem optLt_irrefl (x : Option ℚ) : optLt x x = false := by
  cases x with
  | none => rfl
  | some a => simp [optLt]

theorem optLt_trans {x y z : Option ℚ} (h1 : optLt x y = true) (h2 : optLt y z = true) :
    optLt x z = true := by
  cases x with
  | none => simp [optLt] at h1
  | some a =>
    cases z with
    | none => rfl
    | some c =>
      cases y with
      | none => simp [optLt] at h2
      | some b =>
        simp only [optLt, decide_eq_true_eq] at h1 h2 ⊢
        exact h1.trans h2

theorem optLt_some_none (a : ℚ) : optLt (some a) none = true := rfl

theorem not_optLt_none {x : Option ℚ} (h : optLt x none = false) : x = none := by
  cases x with
  | none => rfl
  | some a => simp [optLt] at h

theorem not_optLt_some {a b : ℚ} (h : optLt (some a) (some b) = false) : b ≤ a := by
  simp only [optLt, decide_eq_false_iff_not, not_lt] at h
  exact h

theorem distLE_refl (a : Option ℚ) : distLE a a :=
  fun d hd => ⟨d, hd, le_rfl⟩

theorem distLE_trans {a b c : Option ℚ} (h1 : distLE a b) (h2 : distLE b c) :
    distLE a c := by
  intro d hd
  obtain ⟨d', hd', hle'⟩ := h2 d hd
  obtain ⟨d'', hd'', hle''⟩ := h1 d' hd'
  exact ⟨d'', hd'', hle''.trans hle'⟩

theorem pathW_nonneg {w : ℕ → ℕ → ℚ} (hw : ∀ i j, 0 ≤ w i j) :
    ∀ l : List ℕ, 0 ≤ pathW w l
  | [] => le_rfl
  | [_] => le_rfl
  | u :: v :: rest => by
    rw [pathW]
    have h1 := hw u v
    have h2 := pathW_nonneg hw (v :: rest)
    linarith

theorem pathW_concat (w : ℕ → ℕ → ℚ) :
    ∀ (l : List ℕ) (u v : ℕ), l.getLast? = some u →
      pathW w (l ++ [v]) = pathW w l + w u v
  | [], _, _, h => by simp at h
  | [x], u, v, h => by
    simp only [List.getLast?_singleton, Option.some_inj] at h
    subst h
    simp [pathW]
  | x :: y :: rest, u, v, h => by
    rw [List.getLast?_cons_cons] at h
    have ih := pathW_concat w (y :: rest) u v h
    have e1 : pathW w ((x :: y :: rest) ++ [v]) = w x y + pathW w ((y :: rest) ++ [v]) :=
      rfl
    have e2 : pathW w (x :: y :: rest) = w x y + pathW w (y :: rest) := rfl
    rw [e1, ih, e2]
    ring

theorem IsPath_single (nodes : List NodeState) (fTeam : Team) (t f : ℕ) :
    IsPath nodes fTeam t f f [f] :=
  ⟨List.chain'_singleton f, rfl, rfl⟩

theorem IsPath_concat {nodes : List NodeState} {fTeam : Team} {t f u v : ℕ}
    {l : List ℕ} (h : IsPath nodes fTeam t f u l)
    (hstep : allowedStep nodes fTeam t u v) :
    IsPath nodes fTeam t f v (l ++ [v]) := by
  obtain ⟨hchain, hhead, hlast⟩ := h
  refine ⟨?_, ?_, List.getLast?_concat l⟩
  · rw [List.chain'_append]
    refine ⟨hchain, List.chain'_singleton v, ?_⟩
    intro x hx y hy
    rw [hlast] at hx
    have hx' : u = x := by simpa using hx
    have hy' : v = y := by simpa using hy
    rw [← hx', ← hy']
    exact hstep
  · cases l with
    | nil => simp at hhead
    | cons a l' => simpa using hhead

theorem IsPath_ne_nil {nodes : List NodeState} {fTeam : Team} {t f u : ℕ}
    {l : List ℕ} (h : IsPath nodes fTeam t f u l) : l ≠ [] := by
  intro hnil
  rw [hnil] at h
  exact Option.noConfusion h.2.1

/-- A duplicate-free list of naturals below `n` has length at most `n`. -/
theorem nodup_lt_length_le {L : List ℕ} {n : ℕ} (hnd : L.Nodup)
    (hb : ∀ v ∈ L, v < n) : L.length ≤ n := by
  have h1 : L.toFinset.card = L.length := List.toFinset_card_of_nodup hnd
  have h2 : L.toFinset ⊆ Finset.range n := by
    intro v hv
    rw [List.mem_toFinset] at hv
    rw [Finset.mem_range]
    exact hb v hv
  calc L.length = L.toFinset.card := h1.symm
    _ ≤ (Finset.range n).card := Finset.card_le_card h2
    _ = n := Finset.card_range n

theorem optLt_asymm {x y : Option ℚ} (h : optLt x y = true) : optLt y x = false := by
  cases x with
  | none => simp [optLt] at h
  | some a =>
    cases y with
    | none => rfl
    | some b =>
      simp only [optLt, decide_eq_true_eq] at h
      simp only [optLt, decide_eq_false_iff_not, not_lt]
      exact h.le

theorem optLt_false_trans {x y z : Option ℚ} (h1 : optLt x y = false)
    (h2 : optLt y z = false) : optLt x z = false := by
  cases x with
  | none => rfl
  | some a =>
    cases y with
    | none => simp [optLt] at h1
    | some b =>
      cases z with
      | none => simp [optLt] at h2
      | some c =>
        have hba := not_optLt_some h1
        have hcb := not_optLt_some h2
        simp only [optLt, decide_eq_false_iff_not, not_lt]
        exact hcb.trans hba

theorem selectStep_of_done {st : DijkState} {node : NodeState} (acc : Option ℕ)
    (h : st.done node.id = true) : selectStep st acc node = acc := by
  rw [selectStep.eq_def, if_pos h]

theorem selectStep_none {st : DijkState} {node : NodeState}
    (h : st.done node.id = false) : selectStep st none node = some node.id := by
  rw [selectStep.eq_def, if_neg (by rw [h]; exact Bool.false_ne_true)]

theorem selectStep_some_lt {st : DijkState} {node : NodeState} {j : ℕ}
    (h : st.done node.id = false) (hlt : optLt (st.dist node.id) (st.dist j) = true) :
    selectStep st (some j) node = some node.id := by
  rw [selectStep.eq_def, if_neg (by rw [h]; exact Bool.false_ne_true)]
  simp only [hlt, if_true]

theorem selectStep_some_ge {st : DijkState} {node : NodeState} {j : ℕ}
    (h : st.done node.id = false) (hlt : optLt (st.dist node.id) (st.dist j) = false) :
    selectStep st (some j) node = some j := by
  rw [selectStep.eq_def, if_neg (by rw [h]; exact Bool.false_ne_true)]
  simp only [hlt, Bool.false_eq_true, if_false]

/-- Characterisation of the selection loop of `Game.dijkstra`, generalised
over the accumulator. -/
theorem selectNext_go (st : DijkState) :
    ∀ (l : List NodeState) (acc : Option ℕ),
      (∀ j, acc = some j → st.done j = false) →
      (l.foldl (selectStep st) acc = none →
        acc = none ∧ ∀ node ∈ l, st.done node.id = true) ∧
      (∀ u, l.foldl (selectStep st) acc = some u →
        st.done u = false ∧
        (acc = some u ∨ ∃ node ∈ l, node.id = u) ∧
        (∀ node ∈ l, st.done node.id = false →
          optLt (st.dist node.id) (st.dist u) = false) ∧
        (∀ j, acc = some j → optLt (st.dist j) (st.dist u) = false ∨ u = j)) := by
  intro l
  induction l with
  | nil =>
    intro acc hacc
    refine ⟨fun h => ⟨h, by simp⟩, fun u hu => ?_⟩
    simp only [List.foldl_nil] at hu
    refine ⟨hacc u hu, Or.inl hu, by simp, fun j hj => Or.inr ?_⟩
    rw [hu] at hj
    exact Option.some_inj.mp hj
  | cons node rest ih =>
    intro acc hacc
    rw [List.foldl_cons]
    by_cases hdone : st.done node.id = true
    · -- the head node is done: the accumulator passes through
      rw [selectStep_of_done acc hdone]
      obtain ⟨ihn, ihs⟩ := ih acc hacc
      constructor
      · intro hres
        obtain ⟨h1, h2⟩ := ihn hres
        refine ⟨h1, ?_⟩
        intro nd hnd
        rcases List.mem_cons.mp hnd with rfl | hnd'
        · exact hdone
        · exact h2 nd hnd'
      · intro u hu
        obtain ⟨h1, h2, h3, h4⟩ := ihs u hu
        refine ⟨h1, ?_, ?_, h4⟩
        · rcases h2 with h2 | ⟨nd, hnd, hid⟩
          · exact Or.inl h2
          · exact Or.inr ⟨nd, List.mem_cons_of_mem node hnd, hid⟩
        · intro nd hnd hndone
          rcases List.mem_cons.mp hnd with rfl | hnd'
          · rw [hdone] at hndone
            exact Bool.noConfusion hndone
          · exact h3 nd hnd' hndone
    · -- the head node is live
      rw [Bool.not_eq_true] at hdone
      have key : ∀ (acc' : Option ℕ),
          (∀ j, acc' = some j → st.done j = false) →
          (∀ j, acc' = some j →
            (optLt (st.dist node.id) (st.dist j) = false ∨ j = node.id) ∧
            (∀ j0, acc = some j0 → optLt (st.dist j0) (st.dist j) = false ∨ j = j0)) →
          (acc' = none → False) →
          (∀ j, acc' = some j → acc = some j ∨ j = node.id) →
          (rest.foldl (selectStep st) acc' = none →
            acc = none ∧ ∀ nd ∈ node :: rest, st.done nd.id = true) ∧
          (∀ u, rest.foldl (selectStep st) acc' = some u →
            st.done u = false ∧
            (acc = some u ∨ ∃ nd ∈ node :: rest, nd.id = u) ∧
            (∀ nd ∈ node :: rest, st.done nd.id = false →
              optLt (st.dist nd.id) (st.dist u) = false) ∧
            (∀ j, acc = some j → optLt (st.dist j) (st.dist u) = false ∨ u = j)) := by
        intro acc' hacc' hrel hnn hor
        obtain ⟨ihn, ihs⟩ := ih acc' hacc'
        constructor
        · intro hres
          exact absurd (ihn hres).1 (fun h => hnn h)
        · intro u hu
          obtain ⟨h1, h2, h3, h4⟩ := ihs u hu
          refine ⟨h1, ?_, ?_, ?_⟩
          · rcases h2 with h2 | ⟨nd, hnd, hid⟩
            · rcases hor u h2 with h | h
              · exact Or.inl h
              · exact Or.inr ⟨node, List.mem_cons_self node rest, h.symm⟩
            · exact Or.inr ⟨nd, List.mem_cons_of_mem node hnd, hid⟩
          · intro nd hnd hndone
            rcases List.mem_cons.mp hnd with rfl | hnd'
            · -- minimality for the head node
              cases hacc'' : acc' with
              | none => exact absurd hacc'' hnn
              | some j =>
                have hj := (hrel j hacc'').1
                have h4' := h4 j hacc''
                rcases h4' with h4' | rfl
                · rcases hj with hj | rfl
                  · exact optLt_false_trans hj h4'
                  · exact h4'
                · rcases hj with hj | rfl
                  · exact hj
                  · exact optLt_irrefl _
            · exact h3 nd hnd' hndone
          · intro j0 hj0
            cases hacc'' : acc' with
            | none => exact absurd hacc'' hnn
            | some j =>
              have h4' := h4 j hacc''
              have hrel2 := (hrel j hacc'').2 j0 hj0
              rcases h4' with h4' | rfl
              · rcases hrel2 with hrel2 | rfl
                · exact Or.inl (optLt_false_trans hrel2 h4')
                · exact Or.inl h4'
              · exact hrel2
      cases acc with
      | none =>
        rw [selectStep_none hdone]
        refine key (some node.id) ?_ ?_ ?_ ?_
        · intro j hj
          rw [← Option.some_inj.mp hj]
          exact hdone
        · intro j hj
          rw [← Option.some_inj.mp hj]
          exact ⟨Or.inr rfl, fun j0 hj0 => Option.noConfusion hj0⟩
        · intro h
          exact Option.noConfusion h
        · intro j hj
          exact Or.inr (Option.some_inj.mp hj).symm
      | some j0 =>
        by_cases hlt : optLt (st.dist node.id) (st.dist j0) = true
        · rw [selectStep_some_lt hdone hlt]
          refine key (some node.id) ?_ ?_ ?_ ?_
          · intro j hj
            rw [← Option.some_inj.mp hj]
            exact hdone
          · intro j hj
            rw [← Option.some_inj.mp hj]
            refine ⟨Or.inr rfl, ?_⟩
            intro j1 hj1
            rw [← Option.some_inj.mp hj1]
            exact Or.inl (optLt_asymm hlt)
          · intro h
            exact Option.noConfusion h
          · intro j hj
            exact Or.inr (Option.some_inj.mp hj).symm
        · rw [Bool.not_eq_true] at hlt
          rw [selectStep_some_ge hdone hlt]
          refine key (some j0) ?_ ?_ ?_ ?_
          · intro j hj
            rw [← Option.some_inj.mp hj]
            exact hacc j0 rfl
          · intro j hj
            rw [← Option.some_inj.mp hj]
            refine ⟨Or.inl hlt, ?_⟩
            intro j1 hj1
            rw [← Option.some_inj.mp hj1]
            exact Or.inr rfl
          · intro h
            exact Option.noConfusion h
          · intro j hj
            exact Or.inl hj

/-- `selectNext` returning `-1` means every node of the map is done. -/
theorem selectNext_none {nodes : List NodeState} {st : DijkState}
    (h : selectNext nodes st = none) : ∀ node ∈ nodes, st.done node.id = true :=
  ((selectNext_go st nodes none (fun _ hj => Option.noConfusion hj)).1 h).2

/-- `selectNext` returns a live node of minimal tentative distance. -/
theorem selectNext_some {nodes : List NodeState} {st : DijkState} {u : ℕ}
    (h : selectNext nodes st = some u) :
    st.done u = false ∧ (∃ node ∈ nodes, node.id = u) ∧
      ∀ node ∈ nodes, st.done node.id = false →
        optLt (st.dist node.id) (st.dist u) = false := by
  obtain ⟨h1, h2, h3, -⟩ :=
    (selectNext_go st nodes none (fun _ hj => Option.noConfusion hj)).2 u h
  rcases h2 with h2 | h2
  · exact Option.noConfusion h2
  · exact ⟨h1, h2, h3⟩

theorem optLt_true_elim {x : Option ℚ} {d : ℚ} (h : optLt x (some d) = true) :
    ∃ x', x = some x' ∧ x' < d := by
  cases x with
  | none => exact Bool.noConfusion h
  | some a =>
    simp only [optLt, decide_eq_true_eq] at h
    exact ⟨a, rfl, h⟩

theorem relaxOne_done (w : ℕ → ℕ → ℚ) (nodes : List NodeState) (fTeam : Team)
    (t u : ℕ) (st : DijkState) (v : ℕ) :
    (relaxOne w nodes fTeam t u st v).done = st.done := by
  rw [relaxOne]
  split_ifs <;> rfl

theorem relaxOne_dist_done {w : ℕ → ℕ → ℚ} {nodes : List NodeState} {fTeam : Team}
    {t u : ℕ} {st : DijkState} {v x : ℕ} (hx : st.done x = true) :
    (relaxOne w nodes fTeam t u st v).dist x = st.dist x := by
  rw [relaxOne]
  split_ifs with h1 h2
  · dsimp only
    rw [if_neg]
    intro hxv
    rw [hxv, h1.1] at hx
    exact Bool.noConfusion hx
  · rfl
  · rfl

theorem relaxOne_dist_mono (w : ℕ → ℕ → ℚ) (nodes : List NodeState) (fTeam : Team)
    (t u : ℕ) (st : DijkState) (v x : ℕ) :
    distLE ((relaxOne w nodes fTeam t u st v).dist x) (st.dist x) := by
  rw [relaxOne]
  split_ifs with h1 h2
  · dsimp only
    by_cases hxv : x = v
    · rw [if_pos hxv]
      intro d hd
      rw [hxv] at hd
      rw [hd] at h2
      obtain ⟨x', hx', hlt⟩ := optLt_true_elim h2
      exact ⟨x', hx', hlt.le⟩
    · rw [if_neg hxv]
      exact distLE_refl _
  · exact distLE_refl _
  · exact distLE_refl _

theorem relax_fold_done (w : ℕ → ℕ → ℚ) (nodes : List NodeState) (fTeam : Team)
    (t u : ℕ) :
    ∀ (l : List ℕ) (st : DijkState),
      (l.foldl (relaxOne w nodes fTeam t u) st).done = st.done
  | [], _ => rfl
  | v :: l, st => by
    rw [List.foldl_cons]
    rw [relax_fold_done w nodes fTeam t u l (relaxOne w nodes fTeam t u st v)]
    exact relaxOne_done w nodes fTeam t u st v

theorem relax_fold_dist_done (w : ℕ → ℕ → ℚ) (nodes : List NodeState) (fTeam : Team)
    (t u : ℕ) :
    ∀ (l : List ℕ) (st : DijkState) (x : ℕ), st.done x = true →
      (l.foldl (relaxOne w nodes fTeam t u) st).dist x = st.dist x
  | [], _, _, _ => rfl
  | v :: l, st, x, hx => by
    rw [List.foldl_cons]
    have hx' : (relaxOne w nodes fTeam t u st v).done x = true := by
      rw [relaxOne_done]
      exact hx
    rw [relax_fold_dist_done w nodes fTeam t u l _ x hx']
    exact relaxOne_dist_done hx

theorem relax_fold_dist_mono (w : ℕ → ℕ → ℚ) (nodes : List NodeState) (fTeam : Team)
    (t u : ℕ) :
    ∀ (l : List ℕ) (st : DijkState) (x : ℕ),
      distLE ((l.foldl (relaxOne w nodes fTeam t u) st).dist x) (st.dist x)
  | [], _, _ => distLE_refl _
  | v :: l, st, x => by
    rw [List.foldl_cons]
    exact distLE_trans (relax_fold_dist_mono w nodes fTeam t u l _ x)
      (relaxOne_dist_mono w nodes fTeam t u st v x)

theorem relaxOne_post {w : ℕ → ℕ → ℚ} {nodes : List NodeState} {fTeam : Team}
    {t u : ℕ} (st : DijkState) (v : ℕ) (hv : st.done v = false)
    (hcons : v = t ∨ (getN nodes v).team = fTeam) :
    distLE ((relaxOne w nodes fTeam t u st v).dist v)
      (optAdd (st.dist u) (w u v)) := by
  rw [relaxOne, if_pos ⟨hv, hcons⟩]
  split_ifs with h2
  · dsimp only
    rw [if_pos rfl]
    exact distLE_refl _
  · rw [Bool.not_eq_true] at h2
    intro d hd
    rw [hd] at h2
    cases hdv : st.dist v with
    | none =>
      rw [hdv, optLt_some_none] at h2
      exact Bool.noConfusion h2
    | some d0 =>
      rw [hdv] at h2
      exact ⟨d0, rfl, not_optLt_some h2⟩

/-- After the relaxation loop of one extraction, every live admissible
neighbour of `u` is bounded by `dist u + w`. -/
theorem relax_fold_post (w : ℕ → ℕ → ℚ) (nodes : List NodeState) (fTeam : Team)
    (t u : ℕ) :
    ∀ (l : List ℕ) (st : DijkState), st.done u = true →
      ∀ y ∈ l, st.done y = false → (y = t ∨ (getN nodes y).team = fTeam) →
        distLE ((l.foldl (relaxOne w nodes fTeam t u) st).dist y)
          (optAdd (st.dist u) (w u y))
  | [], _, _ => by simp
  | v :: l, st, hu => by
    intro y hy hyd hyc
    rw [List.foldl_cons]
    have hu1 : (relaxOne w nodes fTeam t u st v).done u = true := by
      rw [relaxOne_done]
      exact hu
    have hdistu : (relaxOne w nodes fTeam t u st v).dist u = st.dist u :=
      relaxOne_dist_done hu
    rcases List.mem_cons.mp hy with rfl | hy'
    · refine distLE_trans (relax_fold_dist_mono w nodes fTeam t u l _ y) ?_
      exact relaxOne_post st y hyd hyc
    · have hyd1 : (relaxOne w nodes fTeam t u st v).done y = false := by
        rw [relaxOne_done]
        exact hyd
      have := relax_fold_post w nodes fTeam t u l (relaxOne w nodes fTeam t u st v)
        hu1 y hy' hyd1 hyc
      rw [hdistu] at this
      exact this

/-- A single relaxation step preserves the core invariant (relaxations
start from a done node of `L`). -/
theorem relaxOne_core {w : ℕ → ℕ → ℚ} {nodes : List NodeState} {fTeam : Team}
    {t f : ℕ} {L : List ℕ} (hw : ∀ i j, 0 ≤ w i j) {u : ℕ} (huL : u ∈ L)
    {st : DijkState} (hC : DCore w nodes fTeam t f L st) (v : ℕ)
    (hv : v ∈ (getN nodes u).adj) :
    DCore w nodes fTeam t f L (relaxOne w nodes fTeam t u st v) := by
  rw [relaxOne]
  split_ifs with h1 h2
  · -- the update branch
    obtain ⟨hvdone, hvcons⟩ := h1
    have hdu : ∃ du, st.dist u = some du := by
      cases hdu : st.dist u with
      | none =>
        rw [hdu] at h2
        exact Bool.noConfusion h2
      | some du => exact ⟨du, rfl⟩
    obtain ⟨du, hdu⟩ := hdu
    rw [hdu] at h2 ⊢
    have hvu : v ≠ u := by
      intro hvu
      rw [hvu, (hC.done_iff u).mpr huL] at hvdone
      exact Bool.noConfusion hvdone
    have hvf : v ≠ f := by
      intro hvf
      rw [hvf, hC.dist_f] at h2
      obtain ⟨x', hx', hlt⟩ := optLt_true_elim h2
      have h0 : du + w u f = x' := Option.some_inj.mp hx'
      have hdu0 : 0 ≤ du := hC.dist_nonneg u du hdu
      have hw0 := hw u f
      rw [← h0] at hlt
      linarith
    refine ⟨?_, ?_, ?_, ?_, ?_, ?_, ?_, ?_⟩
    · exact hC.done_iff
    · dsimp only
      rw [if_neg hvf.symm]
      exact hC.dist_f
    · dsimp only
      rw [if_neg hvf.symm]
      exact hC.prev_f
    · intro x d hd
      dsimp only at hd
      by_cases hxv : x = v
      · rw [if_pos hxv] at hd
        have he : du + w u v = d := Option.some_inj.mp hd
        have h3 := hC.dist_nonneg u du hdu
        have h4 := hw u v
        rw [← he]
        linarith
      · rw [if_neg hxv] at hd
        exact hC.dist_nonneg x d hd
    · intro x hxf d hd
      dsimp only at hd ⊢
      by_cases hxv : x = v
      · subst hxv
        rw [if_pos rfl] at hd
        refine ⟨u, du, ?_, huL, ?_, ?_, ?_⟩
        · rw [if_pos rfl]
        · rw [if_neg (fun h => hvu h.symm)]
          exact hdu
        · exact (Option.some_inj.mp hd).symm
        · exact ⟨hv, hvcons⟩
      · rw [if_neg hxv] at hd
        obtain ⟨u0, du0, hp, hu0L, hdu0, hsum, hstep⟩ := hC.prev_spec x hxf d hd
        have hu0v : u0 ≠ v := by
          intro h
          rw [← h] at hvdone
          rw [(hC.done_iff u0).mpr hu0L] at hvdone
          exact Bool.noConfusion hvdone
        refine ⟨u0, du0, ?_, hu0L, ?_, hsum, hstep⟩
        · rw [if_neg hxv]
          exact hp
        · rw [if_neg hu0v]
          exact hdu0
    · intro x u0 hp
      dsimp only at hp
      by_cases hxv : x = v
      · rw [if_pos hxv] at hp
        have hu0 : u = u0 := Option.some_inj.mp hp
        rw [← hu0]
        refine ⟨huL, ?_⟩
        intro hxL
        rw [hxv] at hxL
        have hvL := (hC.done_iff v).mpr hxL
        rw [hvL] at hvdone
        exact Bool.noConfusion hvdone
      · rw [if_neg hxv] at hp
        exact hC.prev_order x u0 hp
    · intro x d hd
      dsimp only at hd
      by_cases hxv : x = v
      · subst hxv
        rw [if_pos rfl] at hd
        obtain ⟨lu, hlu, hwu⟩ := hC.reach u du hdu
        have hdd : du + w u x = d := Option.some_inj.mp hd
        refine ⟨lu ++ [x], IsPath_concat hlu ⟨hv, hvcons⟩, ?_⟩
        rw [pathW_concat w lu u x hlu.2.2, hwu, hdd]
      · rw [if_neg hxv] at hd
        exact hC.reach x d hd
    · intro x hxL
      obtain ⟨dx, hdx⟩ := hC.done_fin x hxL
      refine ⟨dx, ?_⟩
      dsimp only
      rw [if_neg]
      · exact hdx
      · intro hxv
        rw [hxv] at hxL
        have hvL := (hC.done_iff v).mpr hxL
        rw [hvL] at hvdone
        exact Bool.noConfusion hvdone
  · exact hC
  · exact hC

/-- The whole relaxation loop preserves the core invariant. -/
theorem relax_fold_core {w : ℕ → ℕ → ℚ} {nodes : List NodeState} {fTeam : Team}
    {t f : ℕ} {L : List ℕ} (hw : ∀ i j, 0 ≤ w i j) {u : ℕ} (huL : u ∈ L) :
    ∀ (l : List ℕ), (∀ v ∈ l, v ∈ (getN nodes u).adj) →
      ∀ (st : DijkState), DCore w nodes fTeam t f L st →
        DCore w nodes fTeam t f L (l.foldl (relaxOne w nodes fTeam t u) st)
  | [], _, _, hC => hC
  | v :: l, hsub, st, hC => by
    rw [List.foldl_cons]
    exact relax_fold_core hw huL l
      (fun x hx => hsub x (List.mem_cons_of_mem v hx)) _
      (relaxOne_core hw huL hC v (hsub v (List.mem_cons_self v l)))

theorem getN_mem {nodes : List NodeState} {i : ℕ} (h : i < nodes.length) :
    getN nodes i ∈ nodes := by
  rw [getN, List.getD_eq_getElem?_getD, List.getElem?_eq_getElem h]
  exact List.getElem_mem h

theorem done_eq_false_of_not_mem {w : ℕ → ℕ → ℚ} {nodes : List NodeState}
    {fTeam : Team} {t f : ℕ} {L : List ℕ} {st : DijkState}
    (hC : DCore w nodes fTeam t f L st) {y : ℕ} (hyL : y ∉ L) :
    st.done y = false := by
  rw [← Bool.not_eq_true]
  intro hh
  exact hyL ((hC.done_iff y).mp hh)

/-- Walking lemma: along any admissible path that starts inside the done
set and ends at the node `u` selected by the extraction step, the
selected distance `d` is at most the entry distance plus the remaining
path weight. -/
theorem dist_le_path_aux {w : ℕ → ℕ → ℚ} {nodes : List NodeState} {fTeam : Team}
    {t f : ℕ} {L : List ℕ} {st : DijkState} (hw : ∀ i j, 0 ≤ w i j)
    (hWF : WellFormedNodes nodes) (hInv : DInv w nodes fTeam t f L st)
    {u : ℕ} (hnd : st.done u = false)
    (hmin : ∀ node ∈ nodes, st.done node.id = false →
      optLt (st.dist node.id) (st.dist u) = false)
    {d : ℚ} (hd : st.dist u = some d) :
    ∀ (P : List ℕ) (x : ℕ) (dx : ℚ),
      List.Chain' (allowedStep nodes fTeam t) (x :: P) →
      x ∈ L → st.dist x = some dx → (x :: P).getLast? = some u →
      d ≤ dx + pathW w (x :: P) := by
  intro P
  induction P with
  | nil =>
    intro x dx _ hxL _ hlast
    exfalso
    have hxu : x = u := by simpa using hlast
    rw [hxu] at hxL
    rw [(hInv.core.done_iff u).mpr hxL] at hnd
    exact Bool.noConfusion hnd
  | cons y P' ih =>
    intro x dx hchain hxL hx hlast
    obtain ⟨hstep, hchain'⟩ := List.chain'_cons.mp hchain
    have hlast' : (y :: P').getLast? = some u := by
      rwa [List.getLast?_cons_cons] at hlast
    have heq : pathW w (x :: y :: P') = w x y + pathW w (y :: P') := rfl
    by_cases hyL : y ∈ L
    · obtain ⟨dy, hdy⟩ := hInv.core.done_fin y hyL
      have hbound : dy ≤ dx + w x y := by
        obtain ⟨lx, hlx, hwx⟩ := hInv.core.reach x dx hx
        have hpath := IsPath_concat hlx hstep
        have hopt := hInv.opt y hyL dy hdy (lx ++ [y]) hpath
        rw [pathW_concat w lx x y hlx.2.2, hwx] at hopt
        exact hopt
      have ih' := ih y dy hchain' hyL hdy hlast'
      rw [heq]
      linarith
    · have hxlt : x < nodes.length := hInv.mem_lt x hxL
      have hylt : y < nodes.length := hWF.2 x hxlt y hstep.1
      obtain ⟨dy, hdy, hbound⟩ := hInv.frontier x hxL y hyL hstep dx hx
      have hydone : st.done y = false := done_eq_false_of_not_mem hInv.core hyL
      have hmin' := hmin (getN nodes y) (getN_mem hylt)
        (by rw [hWF.1 y hylt]; exact hydone)
      rw [hWF.1 y hylt, hdy, hd] at hmin'
      have hdle : d ≤ dy := not_optLt_some hmin'
      have hnn := pathW_nonneg hw (y :: P')
      rw [heq]
      linarith

/-- If `u` is the live node of minimal tentative distance, its distance
is a lower bound on the weight of every admissible path from `f` to `u`. -/
theorem dist_le_path {w : ℕ → ℕ → ℚ} {nodes : List NodeState} {fTeam : Team}
    {t f : ℕ} {L : List ℕ} {st : DijkState} (hw : ∀ i j, 0 ≤ w i j)
    (hWF : WellFormedNodes nodes) (hInv : DInv w nodes fTeam t f L st)
    {u : ℕ} (hnd : st.done u = false)
    (hmin : ∀ node ∈ nodes, st.done node.id = false →
      optLt (st.dist node.id) (st.dist u) = false)
    {d : ℚ} (hd : st.dist u = some d) :
    ∀ l, IsPath nodes fTeam t f u l → d ≤ pathW w l := by
  intro l hl
  rcases hInv.f_mem with hfL | ⟨hLnil, hst⟩
  · obtain ⟨hchain, hhead, hlast⟩ := hl
    cases l with
    | nil => exact Option.noConfusion hhead
    | cons a rest =>
      have haf : a = f := by simpa using hhead
      subst haf
      have h0 := dist_le_path_aux hw hWF hInv hnd hmin hd rest a 0 hchain hfL
        hInv.core.dist_f hlast
      linarith
  · rw [hst] at hd
    by_cases huf : u = f
    · have hd0 : d = 0 := by
        rw [huf] at hd
        simpa [dijkInit] using hd.symm
      rw [hd0]
      exact pathW_nonneg hw l
    · exfalso
      have : (dijkInit f).dist u = none := by simp [dijkInit, huf]
      rw [this] at hd
      exact Option.noConfusion hd

/-- Any admissible path entering the done set and leaving it crosses an
admissible edge from the done set to its complement. -/
theorem path_exit {nodes : List NodeState} {fTeam : Team} {t : ℕ} {L : List ℕ} :
    ∀ (P : List ℕ) (x : ℕ),
      List.Chain' (allowedStep nodes fTeam t) (x :: P) → x ∈ L →
      ∀ z, (x :: P).getLast? = some z → z ∉ L →
      ∃ a b, a ∈ L ∧ b ∉ L ∧ allowedStep nodes fTeam t a b := by
  intro P
  induction P with
  | nil =>
    intro x _ hxL z hlast hzL
    exfalso
    have : x = z := by simpa using hlast
    rw [this] at hxL
    exact hzL hxL
  | cons y P' ih =>
    intro x hchain hxL z hlast hzL
    obtain ⟨hstep, hchain'⟩ := List.chain'_cons.mp hchain
    by_cases hyL : y ∈ L
    · exact ih y hchain' hyL z (by rwa [List.getLast?_cons_cons] at hlast) hzL
    · exact ⟨x, y, hxL, hyL, hstep⟩

theorem getN_eq_getElem {nodes : List NodeState} {i : ℕ} (h : i < nodes.length) :
    getN nodes i = nodes[i] := by
  rw [getN, List.getD_eq_getElem?_getD, List.getElem?_eq_getElem h]
  rfl

theorem relaxAll_done (w : ℕ → ℕ → ℚ) (nodes : List NodeState) (fTeam : Team)
    (t u : ℕ) (st : DijkState) :
    (relaxAll w nodes fTeam t u st).done = st.done := by
  rw [relaxAll]
  exact relax_fold_done w nodes fTeam t u _ st

theorem relaxAll_dist_done {w : ℕ → ℕ → ℚ} {nodes : List NodeState} {fTeam : Team}
    {t u : ℕ} {st : DijkState} {x : ℕ} (hx : st.done x = true) :
    (relaxAll w nodes fTeam t u st).dist x = st.dist x := by
  rw [relaxAll]
  exact relax_fold_dist_done w nodes fTeam t u _ st x hx

theorem relaxAll_dist_mono (w : ℕ → ℕ → ℚ) (nodes : List NodeState) (fTeam : Team)
    (t u : ℕ) (st : DijkState) (x : ℕ) :
    distLE ((relaxAll w nodes fTeam t u st).dist x) (st.dist x) := by
  rw [relaxAll]
  exact relax_fold_dist_mono w nodes fTeam t u _ st x

theorem relaxAll_post {w : ℕ → ℕ → ℚ} {nodes : List NodeState} {fTeam : Team}
    {t u : ℕ} {st : DijkState} (hu : st.done u = true) {y : ℕ}
    (hy : y ∈ (getN nodes u).adj) (hyd : st.done y = false)
    (hyc : y = t ∨ (getN nodes y).team = fTeam) :
    distLE ((relaxAll w nodes fTeam t u st).dist y) (optAdd (st.dist u) (w u y)) := by
  rw [relaxAll]
  exact relax_fold_post w nodes fTeam t u _ st hu y hy hyd hyc

theorem relaxAll_core {w : ℕ → ℕ → ℚ} {nodes : List NodeState} {fTeam : Team}
    {t f : ℕ} {L : List ℕ} (hw : ∀ i j, 0 ≤ w i j) {u : ℕ} (huL : u ∈ L)
    {st : DijkState} (hC : DCore w nodes fTeam t f L st) :
    DCore w nodes fTeam t f L (relaxAll w nodes fTeam t u st) := by
  rw [relaxAll]
  exact relax_fold_core hw huL _ (fun _ hx => hx) st hC

theorem indexOf_concat_self {L : List ℕ} {u : ℕ} (h : u ∉ L) :
    (L ++ [u]).indexOf u = L.length := by
  rw [List.indexOf_append_of_not_mem h]
  simp

/-- One extraction step of the main loop: marking the selected node done
and relaxing its neighbours re-establishes the full invariant with the
selected node appended to the extraction order. -/
theorem DInv_extend {w : ℕ → ℕ → ℚ} {nodes : List NodeState} {fTeam : Team}
    {t f : ℕ} {L : List ℕ} {st : DijkState} (hw : ∀ i j, 0 ≤ w i j)
    (hWF : WellFormedNodes nodes) (hInv : DInv w nodes fTeam t f L st)
    {u : ℕ} (hsel : selectNext nodes st = some u)
    {d : ℚ} (hd : st.dist u = some d) (hut : u ≠ t) :
    DInv w nodes fTeam t f (L ++ [u]) (relaxAll w nodes fTeam t u (markDone u st)) := by
  obtain ⟨hnd, ⟨node, hnmem, hnid⟩, hmin⟩ := selectNext_some hsel
  have hult : u < nodes.length := by
    obtain ⟨i, hi, hig⟩ := List.getElem_of_mem hnmem
    have : (getN nodes i).id = i := hWF.1 i hi
    rw [getN_eq_getElem hi, hig, hnid] at this
    rw [this]
    exact hi
  have huL : u ∉ L := by
    intro huL
    rw [(hInv.core.done_iff u).mpr huL] at hnd
    exact Bool.noConfusion hnd
  have hC1 : DCore w nodes fTeam t f (L ++ [u]) (markDone u st) := by
    refine ⟨?_, hInv.core.dist_f, hInv.core.prev_f, hInv.core.dist_nonneg, ?_, ?_, ?_, ?_⟩
    · intro v
      show (if v = u then true else st.done v) = true ↔ v ∈ L ++ [u]
      by_cases hvu : v = u
      · simp [hvu]
      · rw [if_neg hvu, List.mem_append]
        simp only [List.mem_singleton, hvu, or_false]
        exact hInv.core.done_iff v
    · intro v hvf dv hdv
      obtain ⟨u0, du0, hp, hu0L, hdu0, hsum, hstep⟩ := hInv.core.prev_spec v hvf dv hdv
      exact ⟨u0, du0, hp, List.mem_append_left _ hu0L, hdu0, hsum, hstep⟩
    · intro v u0 hp
      obtain ⟨hu0L, hord⟩ := hInv.core.prev_order v u0 hp
      refine ⟨List.mem_append_left _ hu0L, ?_⟩
      intro hvL'
      rcases List.mem_append.mp hvL' with hvL | hvu
      · rw [List.indexOf_append_of_mem hu0L, List.indexOf_append_of_mem hvL]
        exact hord hvL
      · have hvu : v = u := by simpa using hvu
        rw [hvu, indexOf_concat_self huL, List.indexOf_append_of_mem hu0L]
        exact List.indexOf_lt_length.mpr hu0L
    · intro v dv hdv
      exact hInv.core.reach v dv hdv
    · intro v hvL'
      rcases List.mem_append.mp hvL' with hvL | hvu
      · exact hInv.core.done_fin v hvL
      · have hvu : v = u := by simpa using hvu
        exact ⟨d, by rw [hvu]; exact hd⟩
  have huL' : u ∈ L ++ [u] := List.mem_append_right _ (List.mem_singleton_self u)
  have hC2 : DCore w nodes fTeam t f (L ++ [u]) (relaxAll w nodes fTeam t u (markDone u st)) :=
    relaxAll_core hw huL' hC1
  have hdone1 : ∀ x ∈ L ++ [u], (markDone u st).done x = true :=
    fun x hx => (hC1.done_iff x).mpr hx
  have hdist2 : ∀ x ∈ L ++ [u],
      (relaxAll w nodes fTeam t u (markDone u st)).dist x = st.dist x := by
    intro x hx
    rw [relaxAll_dist_done (hdone1 x hx)]
    rfl
  refine ⟨hC2, ?_, ?_, ?_, ?_, ?_, ?_⟩
  · rw [List.nodup_append]
    refine ⟨hInv.nodup, List.nodup_singleton u, ?_⟩
    intro a haL hau
    have : a = u := by simpa using hau
    rw [this] at haL
    exact huL haL
  · intro v hvL'
    rcases List.mem_append.mp hvL' with hvL | hvu
    · exact hInv.mem_lt v hvL
    · have : v = u := by simpa using hvu
      rw [this]
      exact hult
  · intro v hvL'
    rcases List.mem_append.mp hvL' with hvL | hvu
    · exact hInv.mem_ne_t v hvL
    · have : v = u := by simpa using hvu
      rw [this]
      exact hut
  · -- optimality of all done distances
    intro x hxL' dx hdx l hl
    rw [hdist2 x hxL'] at hdx
    rcases List.mem_append.mp hxL' with hxL | hxu
    · exact hInv.opt x hxL dx hdx l hl
    · have hxu : x = u := by simpa using hxu
      subst hxu
      exact dist_le_path hw hWF hInv hnd hmin hdx l hl
  · -- frontier
    intro x hxL' y hyL' hstep dx hdx
    rw [hdist2 x hxL'] at hdx
    have hyL : y ∉ L := fun h => hyL' (List.mem_append_left _ h)
    have hyu : y ≠ u := by
      intro h
      exact hyL' (by rw [h]; exact huL')
    have hyd : st.done y = false := done_eq_false_of_not_mem hInv.core hyL
    have hyd1 : (markDone u st).done y = false := by
      show (if y = u then true else st.done y) = false
      rw [if_neg hyu]
      exact hyd
    rcases List.mem_append.mp hxL' with hxL | hxu
    · obtain ⟨dy, hdy, hb⟩ := hInv.frontier x hxL y hyL hstep dx hdx
      have hmono : distLE ((relaxAll w nodes fTeam t u (markDone u st)).dist y)
          ((markDone u st).dist y) := relaxAll_dist_mono w nodes fTeam t u _ y
      obtain ⟨dy', hdy', hle'⟩ := hmono dy hdy
      exact ⟨dy', hdy', hle'.trans hb⟩
    · have hxu : x = u := by simpa using hxu
      rw [hxu] at hdx hstep
      have hmdone : (markDone u st).done u = true := by simp [markDone]
      have hpost := @relaxAll_post w nodes fTeam t u (markDone u st) hmdone y
        hstep.1 hyd1 hstep.2
      have hdu1 : (markDone u st).dist u = some dx := hdx
      rw [hdu1] at hpost
      obtain ⟨dy', hdy', hle'⟩ := hpost (dx + w u y) rfl
      rw [hxu]
      exact ⟨dy', hdy', hle'⟩
  · -- the source is in the done list
    rcases hInv.f_mem with hfL | ⟨hLnil, hst⟩
    · exact Or.inl (List.mem_append_left _ hfL)
    · left
      have huf : u = f := by
        rw [hst] at hd
        by_contra huf
        have : (dijkInit f).dist u = none := by simp [dijkInit, huf]
        rw [this] at hd
        exact Option.noConfusion hd
      rw [← huf]
      exact List.mem_append_right _ (by simp)

/-- Unfolding of one iteration of the main `while (true)` loop. -/
theorem dijkstraLoop_succ (w : ℕ → ℕ → ℚ) (nodes : List NodeState) (fTeam : Team)
    (t fuel : ℕ) (st : DijkState) :
    dijkstraLoop w nodes fTeam t (fuel + 1) st =
      match selectNext nodes st with
      | none => none
      | some u =>
        if st.dist u = none then none
        else if u = t then some st
        else dijkstraLoop w nodes fTeam t fuel
          (relaxAll w nodes fTeam t u (markDone u st)) := rfl

/-- Unfolding of one iteration of the backtracking loop. -/
theorem backtrack_succ (st : DijkState) (f fuel targetID : ℕ) :
    backtrack st f (fuel + 1) targetID =
      if st.prev targetID = some f then some targetID
      else
        match st.prev targetID with
        | none => none
        | some p => backtrack st f fuel p := rfl

/-- The router invariant holds at the initial state
(`dist[from.id] = 0`, everything else `Infinity`, nothing done). -/
theorem DInv_init (w : ℕ → ℕ → ℚ) (nodes : List NodeState) (fTeam : Team) (t f : ℕ) :
    DInv w nodes fTeam t f [] (dijkInit f) := by
  refine ⟨⟨?_, ?_, rfl, ?_, ?_, ?_, ?_, ?_⟩, List.nodup_nil, ?_, ?_, ?_, ?_,
    Or.inr ⟨rfl, rfl⟩⟩
  · intro v
    simp [dijkInit]
  · simp [dijkInit]
  · intro v d hd
    simp only [dijkInit] at hd
    split_ifs at hd with hvf
    rw [← Option.some_inj.mp hd]
  · intro v hvf d hd
    simp only [dijkInit] at hd
    rw [if_neg hvf] at hd
    exact Option.noConfusion hd
  · intro v u hp
    exact Option.noConfusion hp
  · intro v d hd
    simp only [dijkInit] at hd
    split_ifs at hd with hvf
    subst hvf
    exact ⟨[v], IsPath_single nodes fTeam t v, by
      rw [← Option.some_inj.mp hd]; rfl⟩
  · intro u hu
    exact absurd hu (List.not_mem_nil u)
  · intro v hv
    exact absurd hv (List.not_mem_nil v)
  · intro v hv
    exact absurd hv (List.not_mem_nil v)
  · intro u hu
    exact absurd hu (List.not_mem_nil u)
  · intro x hx
    exact absurd hx (List.not_mem_nil x)

/-- Main-loop correctness: from any state satisfying the invariant, with
enough fuel, the loop returns `none` only if no admissible path from `f`
to `t` exists, and a `break` state only with an optimal finite tentative
distance at `t` and a full invariant for reading off the path. -/
theorem dijkstraLoop_spec {w : ℕ → ℕ → ℚ} {nodes : List NodeState} {fTeam : Team}
    {t f : ℕ} (hw : ∀ i j, 0 ≤ w i j) (hWF : WellFormedNodes nodes)
    (hf : f < nodes.length) (ht : t < nodes.length) :
    ∀ (fuel : ℕ) (L : List ℕ) (st : DijkState),
      DInv w nodes fTeam t f L st → t ∉ L →
      nodes.length + 1 ≤ fuel + L.length →
      (dijkstraLoop w nodes fTeam t fuel st = none →
        ∀ l, ¬ IsPath nodes fTeam t f t l) ∧
      (∀ st', dijkstraLoop w nodes fTeam t fuel st = some st' →
        ∃ L', DInv w nodes fTeam t f L' st' ∧ L'.length ≤ nodes.length ∧
          ∃ d, st'.dist t = some d ∧
            ∀ l, IsPath nodes fTeam t f t l → d ≤ pathW w l) := by
  intro fuel
  induction fuel with
  | zero =>
    intro L st hInv htL hfuel
    exfalso
    have hlen := nodup_lt_length_le hInv.nodup hInv.mem_lt
    omega
  | succ fuel ih =>
    intro L st hInv htL hfuel
    rcases hsel : selectNext nodes st with _ | u
    · exfalso
      have hmem := selectNext_none hsel (getN nodes t) (getN_mem ht)
      rw [hWF.1 t ht] at hmem
      exact htL ((hInv.core.done_iff t).mp hmem)
    · obtain ⟨hnd, ⟨node, hnmem, hnid⟩, hmin⟩ := selectNext_some hsel
      rcases hdu : st.dist u with _ | d
      · have hred : dijkstraLoop w nodes fTeam t (fuel + 1) st = none := by
          simp only [dijkstraLoop_succ, hsel]
          rw [if_pos hdu]
        rw [hred]
        refine ⟨?_, ?_⟩
        · intro _ l hl
          exfalso
          rcases hInv.f_mem with hfL | ⟨hLnil, hst⟩
          · obtain ⟨hchain, hhead, hlast⟩ := hl
            cases l with
            | nil => exact Option.noConfusion hhead
            | cons a rest =>
              have haf : a = f := by simpa using hhead
              subst haf
              obtain ⟨x, y, hxL, hyL, hxy⟩ := path_exit rest a hchain hfL t hlast htL
              obtain ⟨dx, hdx⟩ := hInv.core.done_fin x hxL
              obtain ⟨dy, hdy, -⟩ := hInv.frontier x hxL y hyL hxy dx hdx
              have hylt : y < nodes.length := hWF.2 x (hInv.mem_lt x hxL) y hxy.1
              have hyd : st.done y = false := done_eq_false_of_not_mem hInv.core hyL
              have hmin' := hmin (getN nodes y) (getN_mem hylt)
              rw [hWF.1 y hylt] at hmin'
              have hc := hmin' hyd
              rw [hdy, hdu] at hc
              simp [optLt] at hc
          · have hfd : st.done f = false := by rw [hst]; rfl
            have hmin' := hmin (getN nodes f) (getN_mem hf)
            rw [hWF.1 f hf] at hmin'
            have hc := hmin' hfd
            rw [hInv.core.dist_f, hdu] at hc
            simp [optLt] at hc
        · intro st' hst'
          exact Option.noConfusion hst'
      · by_cases hut : u = t
        · have hnn : ¬ st.dist u = none := by
            intro hc
            rw [hdu] at hc
            exact Option.noConfusion hc
          have hred : dijkstraLoop w nodes fTeam t (fuel + 1) st = some st := by
            simp only [dijkstraLoop_succ, hsel]
            rw [if_neg hnn, if_pos hut]
          rw [hred]
          refine ⟨?_, ?_⟩
          · intro hc
            exact Option.noConfusion hc
          · intro st' hst'
            rw [← Option.some_inj.mp hst']
            refine ⟨L, hInv, nodup_lt_length_le hInv.nodup hInv.mem_lt, d, ?_, ?_⟩
            · rw [← hut]
              exact hdu
            · have hopt := dist_le_path hw hWF hInv hnd hmin hdu
              rw [hut] at hopt
              exact hopt
        · have hnn : ¬ st.dist u = none := by
            intro hc
            rw [hdu] at hc
            exact Option.noConfusion hc
          have hred : dijkstraLoop w nodes fTeam t (fuel + 1) st =
              dijkstraLoop w nodes fTeam t fuel
                (relaxAll w nodes fTeam t u (markDone u st)) := by
            simp only [dijkstraLoop_succ, hsel]
            rw [if_neg hnn, if_neg hut]
          rw [hred]
          have hInv2 := DInv_extend hw hWF hInv hsel hdu hut
          have htL2 : t ∉ L ++ [u] := by
            intro hc
            rcases List.mem_append.mp hc with h | h
            · exact htL h
            · have htu : t = u := by simpa using h
              exact hut htu.symm
          have hfuel2 : nodes.length + 1 ≤ fuel + (L ++ [u]).length := by
            simp only [List.length_append, List.length_singleton]
            omega
          exact ih (L ++ [u]) (relaxAll w nodes fTeam t u (markDone u st)) hInv2
            htL2 hfuel2

/-- Backtracking correctness: from a state satisfying the invariant, the
`prev`-chain walk from any finitely-distanced node `v ≠ f` terminates at
the second node `z` of an admissible path `f :: z :: … :: v` whose total
weight is the recorded tentative distance of `v`. -/
theorem backtrack_chain {w : ℕ → ℕ → ℚ} {nodes : List NodeState} {fTeam : Team}
    {t f : ℕ} {L : List ℕ} {st : DijkState}
    (hInv : DInv w nodes fTeam t f L st) :
    ∀ (fuel : ℕ) (v : ℕ) (dv : ℚ), v ≠ f → st.dist v = some dv →
      ((v ∈ L ∧ L.indexOf v < fuel) ∨ L.length < fuel) →
      ∃ z m, backtrack st f fuel v = some z ∧
        IsPath nodes fTeam t f v (f :: z :: m) ∧ pathW w (f :: z :: m) = dv := by
  intro fuel
  induction fuel with
  | zero =>
    intro v dv _ _ hdisj
    exfalso
    rcases hdisj with ⟨-, h⟩ | h <;> omega
  | succ fuel ih =>
    intro v dv hvf hdv hdisj
    obtain ⟨p, dp, hp, hpL, hdp, hsum, hstep⟩ := hInv.core.prev_spec v hvf dv hdv
    by_cases hpf : p = f
    · subst hpf
      rw [backtrack_succ, if_pos hp]
      have hdp0 : dp = 0 := by
        rw [hInv.core.dist_f] at hdp
        exact (Option.some_inj.mp hdp).symm
      refine ⟨v, [], rfl, ?_, ?_⟩
      · exact ⟨List.chain'_cons.mpr ⟨hstep, List.chain'_singleton v⟩, rfl, rfl⟩
      · show w p v + pathW w [v] = dv
        rw [hsum, hdp0]
        show w p v + 0 = 0 + w p v
        ring
    · have hne : st.prev v ≠ some f := by
        rw [hp]
        intro hc
        exact hpf (Option.some_inj.mp hc)
      rw [backtrack_succ, if_neg hne, hp]
      have hidx : L.indexOf p < fuel := by
        rcases hdisj with ⟨hvL, hvfuel⟩ | hlenf
        · have hord := (hInv.core.prev_order v p hp).2 hvL
          omega
        · have := List.indexOf_lt_length.mpr hpL
          omega
      obtain ⟨z, m, hz, hpath, hpw⟩ := ih p dp hpf hdp (Or.inl ⟨hpL, hidx⟩)
      refine ⟨z, m ++ [v], hz, ?_, ?_⟩
      · have hcat := IsPath_concat hpath hstep
        simpa using hcat
      · have hfz : f :: z :: (m ++ [v]) = (f :: z :: m) ++ [v] := by simp
        rw [hfz, pathW_concat w _ p v hpath.2.2, hpw, hsum]

/-- C4.  `Game.dijkstra(from, to)` is a correct router over the subgraph
of nodes owned by `from`'s team plus the destination itself: it returns
`undefined` when `from == to` and whenever no admissible path exists, and
otherwise returns the first hop of an admissible path from `from` to `to`
of minimal total weight.  The Euclidean edge weight is an arbitrary
non-negative `w`; `WellFormedNodes` is the id-is-index guarantee of the
`Map` constructor. -/
theorem dijkstra_correct (w : ℕ → ℕ → ℚ) (nodes : List NodeState) (f t : ℕ)
    (hw : ∀ i j, 0 ≤ w i j) (hWF : WellFormedNodes nodes)
    (hf : f < nodes.length) (ht : t < nodes.length) :
    (f = t → dijkstra w nodes f t = none) ∧
    ((¬ ∃ l, IsPath nodes (getN nodes f).team t f t l) →
      dijkstra w nodes f t = none) ∧
    ((f ≠ t ∧ ∃ l, IsPath nodes (getN nodes f).team t f t l) →
      ∃ z m, dijkstra w nodes f t = some z ∧
        IsPath nodes (getN nodes f).team t f t (f :: z :: m) ∧
        ∀ l, IsPath nodes (getN nodes f).team t f t l →
          pathW w (f :: z :: m) ≤ pathW w l) := by
  have hloop := @dijkstraLoop_spec w nodes (getN nodes f).team t f hw hWF hf ht
    (nodes.length + 1) [] (dijkInit f)
    (DInv_init w nodes (getN nodes f).team t f) (List.not_mem_nil t) (by simp)
  rcases hL : dijkstraLoop w nodes (getN nodes f).team t (nodes.length + 1)
      (dijkInit f) with _ | st'
  · have hres : dijkstra w nodes f t = none := by
      simp only [dijkstra, hL]
    have hnopath := hloop.1 hL
    refine ⟨fun _ => hres, fun _ => hres, ?_⟩
    rintro ⟨-, l, hl⟩
    exact absurd hl (hnopath l)
  · obtain ⟨L', hInv', hlen, d, hdt, hmind⟩ := hloop.2 st' hL
    have hres : dijkstra w nodes f t = backtrack st' f (nodes.length + 1) t := by
      simp only [dijkstra, hL]
    refine ⟨?_, ?_, ?_⟩
    · intro hft
      rw [hres, backtrack_succ]
      have hpf : st'.prev t = none := by
        rw [← hft]
        exact hInv'.core.prev_f
      have hnp : ¬ st'.prev t = some f := by
        intro hc
        rw [hpf] at hc
        exact Option.noConfusion hc
      rw [if_neg hnp, hpf]
    · intro hno
      exfalso
      obtain ⟨l, hl, -⟩ := hInv'.core.reach t d hdt
      exact hno ⟨l, hl⟩
    · rintro ⟨hft, -⟩
      obtain ⟨z, m, hz, hpath, hpw⟩ := backtrack_chain hInv' (nodes.length + 1) t d
        (Ne.symm hft) hdt (Or.inr (by omega))
      refine ⟨z, m, ?_, hpath, ?_⟩
      · rw [hres]
        exact hz
      · intro l hl
        rw [hpw]
        exact hmind l hl

/-- The concrete admissible path `0 → 1 → 2` on the three-node line map. -/
theorem exPath012 : IsPath exNodes (getN exNodes 0).team 2 0 2 [0, 1, 2] :=
  ⟨List.chain'_cons.mpr ⟨by decide,
    List.chain'_cons.mpr ⟨by decide, List.chain'_singleton 2⟩⟩, rfl, rfl⟩

/-- C4, witness: on the three-node line map, routing from node 0 to the
neutral destination node 2 returns the first hop 1 of the unique (hence
shortest) admissible path `[0, 1, 2]`. -/
theorem dijkstra_correct_witness :
    ((0 : ℕ) ≠ 2 ∧ ∃ l, IsPath exNodes (getN exNodes 0).team 2 0 2 l) ∧
    ∃ z m, dijkstra exW exNodes 0 2 = some z ∧
      IsPath exNodes (getN exNodes 0).team 2 0 2 (0 :: z :: m) ∧
      ∀ l, IsPath exNodes (getN exNodes 0).team 2 0 2 l →
        pathW exW (0 :: z :: m) ≤ pathW exW l :=
  ⟨⟨by decide, ⟨[0, 1, 2], exPath012⟩⟩,
    (dijkstra_correct exW exNodes 0 2 (fun i j => by norm_num [exW]) (by decide)
      (by decide) (by decide)).2.2 ⟨by decide, ⟨[0, 1, 2], exPath012⟩⟩⟩

end Riskystrats
